import Mathlib

set_option maxHeartbeats 1000000

/- Verification of the Auto-Explorer interest-graph engine
(scripts/interest_graph.py) against its natural-language specification.
The Python data model (JSON dicts) is embedded shallowly: insertion-ordered
dicts become association lists, calendar dates become epoch-day integers
(with Option none standing for an empty or unparseable lastSeen string,
which the source treats identically everywhere), floats are idealised as
real numbers, and the global random-number generator of the random module
is threaded explicitly as a natural-number state. -/

structure Bandit where
  alpha : ℝ
  beta : ℝ

structure GConcept where
  labels : List (String × String)
  category : String
  weight : ℝ
  lastSeen : Option ℤ
  sessionCount : ℕ
  broader : List String
  narrower : List String
  related : List String
  bandit : Option Bandit

structure Edge where
  src : String
  tgt : String
  w : ℤ
  lastSeen : ℤ
  deriving DecidableEq

structure GraphMeta where
  totalSessions : ℤ
  lastUpdated : String
  halfLifeDays : ℕ

structure Graph where
  version : ℕ
  meta : GraphMeta
  concepts : List (String × GConcept)
  edges : List Edge

/-- Python expression concept.get("bandit", {}).get("alpha", 1). -/
def banditAlpha (c : GConcept) : ℝ :=
  match c.bandit with
  | some b => b.alpha
  | none => 1

/-- Python expression concept.get("bandit", {}).get("beta", 1). -/
def banditBeta (c : GConcept) : ℝ :=
  match c.bandit with
  | some b => b.beta
  | none => 1

/-- State of the global pseudo-random generator of the random module, modelled
abstractly as a natural number; random.seed(s) resets it deterministically to
seedState s. -/
def seedState (s : ℕ) : ℕ := s

/-- Deterministic model of random.betavariate: the draw is a pure function of
the generator state and advances it.  The distribution parameters are accepted
as the source passes them, but the model does not reproduce the
Mersenne-Twister value stream; no claim depends on the numeric law of the
draws, only on their determinism as a function of the state.  The returned
value lies in the open interval (0,1) as a real betavariate draw does. -/
noncomputable def betavariate (a b : ℝ) (rs : ℕ) : ℝ × ℕ :=
  ((rs % 1000 + 1 : ℕ) / 1002, rs + 1)

/-- Python expression len(broader) + len(narrower) + len(related). -/
def connectionCount (c : GConcept) : ℕ :=
  c.broader.length + c.narrower.length + c.related.length

/-- Days elapsed since the concept's lastSeen inside suggest_topics; the
variable days stays 0 when lastSeen is empty or unparseable. -/
def daysSince (today : ℤ) (c : GConcept) : ℤ :=
  match c.lastSeen with
  | some d => today - d
  | none => 0

/-- Reason string attached to a suggestion: the if/elif chain of
suggest_topics, verbatim strings from the source. -/
noncomputable def reasonFor (today : ℤ) (c : GConcept) : String :=
  if 60 < daysSince today c then "revisit (not seen in a while)"
  else if connectionCount c = 0 then "unexplored connection"
  else if banditAlpha c > banditBeta c * 2 then "strong interest"
  else "balanced exploration"

/-- Recency multiplier of suggest_topics: math.pow(2, -days / half_life), or
0.5 when lastSeen is absent or unparseable. -/
noncomputable def recencyOf (halfLife : ℕ) (today : ℤ) (c : GConcept) : ℝ :=
  match c.lastSeen with
  | some d => (2 : ℝ) ^ (-(((today - d) : ℤ) : ℝ) / (halfLife : ℝ))
  | none => 0.5

/-- Candidate loop of suggest_topics: walks the insertion-ordered concept map,
skips concepts with weight below 0.05 and excluded ids, and draws one Thompson
sample per surviving concept from the threaded generator state. -/
noncomputable def suggestCandidates (halfLife : ℕ) (today : ℤ) (recent : List String) :
    List (String × GConcept) → ℕ → List (String × ℝ × String) × ℕ
  | [], rs => ([], rs)
  | (cid, c) :: rest, rs =>
    if c.weight < 0.05 then suggestCandidates halfLife today recent rest rs
    else if cid ∈ recent then suggestCandidates halfLife today recent rest rs
    else
      let tsDraw := betavariate (max (banditAlpha c) 0.1) (max (banditBeta c) 0.1) rs
      let serendipity : ℝ := 1.0 / (1.0 + (connectionCount c : ℝ) * 0.1)
      let score : ℝ := tsDraw.1 * recencyOf halfLife today c * (1.0 + 0.3 * serendipity)
      let out := suggestCandidates halfLife today recent rest tsDraw.2
      ((cid, score, reasonFor today c) :: out.1, out.2)

/-- Descending insertion on a key; models Python list.sort with key -score
(the spec explicitly does not guarantee tie order, section 9). -/
def insertDescBy {α β : Type} [LinearOrder β] (key : α → β) (x : α) : List α → List α
  | [] => [x]
  | y :: ys => if key y ≤ key x then x :: y :: ys else y :: insertDescBy key x ys

/-- Insertion sort, descending on a key. -/
def sortDescBy {α β : Type} [LinearOrder β] (key : α → β) : List α → List α
  | [] => []
  | x :: xs => insertDescBy key x (sortDescBy key xs)

/-- Embedding of suggest_topics.  today is the current date (epoch day) and rs
the ambient global generator state; random.seed(seed) replaces that state by
seedState seed when a seed is supplied.  Returns the ranked candidate list and
the final generator state. -/
noncomputable def suggest_topics (g : Graph) (n : ℕ) (recent : List String)
    (seed : Option ℕ) (today : ℤ) (rs : ℕ) : List (String × ℝ × String) × ℕ :=
  let rs0 := match seed with
    | some s => seedState s
    | none => rs
  let cands := suggestCandidates g.meta.halfLifeDays today recent g.concepts rs0
  ((sortDescBy (fun t => t.2.1) cands.1).take n, cands.2)

/-- Python dict access, first binding wins (keys are unique in a dict, so the
first binding is the binding). -/
def lookupId {α : Type} : List (String × α) → String → Option α
  | [], _ => none
  | p :: rest, k => if p.1 = k then some p.2 else lookupId rest k

/-- One concept's step of apply_decay: the decayed concept together with the
flag saying the pruning loop queues it for removal.  Concepts with an empty or
unparseable lastSeen, and those with days <= 0, are skipped untouched and are
in particular never queued for removal. -/
noncomputable def decayStep (halfLife : ℕ) (today : ℤ) (c : GConcept) : GConcept × Bool :=
  match c.lastSeen with
  | none => (c, false)
  | some d =>
    if today - d ≤ 0 then (c, false)
    else
      let w := c.weight * (2 : ℝ) ^ (-(((today - d) : ℤ) : ℝ) / (halfLife : ℝ))
      ({ c with weight := w }, if w < 0.01 ∧ c.sessionCount ≤ 1 then true else false)

/-- Embedding of apply_decay: decay every concept via decayStep, collect the
queued ids, then delete the queued concepts from the map and delete every edge
referencing a removed id. -/
noncomputable def apply_decay (g : Graph) (today : ℤ) : Graph :=
  let processed := g.concepts.map fun p => (p.1, decayStep g.meta.halfLifeDays today p.2)
  let toRemove := (processed.filter fun p => p.2.2).map fun p => p.1
  { g with
    concepts := (processed.filter fun p => !p.2.2).map fun p => (p.1, p.2.1),
    edges := g.edges.filter fun e =>
      !(toRemove.contains e.src) && !(toRemove.contains e.tgt) }

/-- Concrete graph for the C2 witness: one concept of weight 8 last seen 30
days before today, with half-life 90. -/
noncomputable def cC2 : GConcept :=
  { labels := [("en", "topic-a")], category := "general", weight := 8,
    lastSeen := some 0, sessionCount := 1, broader := [], narrower := [],
    related := [], bandit := some { alpha := 1, beta := 1 } }

noncomputable def gC2 : Graph :=
  { version := 1,
    meta := { totalSessions := 0, lastUpdated := "", halfLifeDays := 90 },
    concepts := [("a", cC2)], edges := [] }

/-- Concrete graph refuting C3 as stated: a same-day concept with weight
0.005 < 0.01 and sessionCount 1. -/
noncomputable def cC3x : GConcept :=
  { labels := [("en", "faded")], category := "general", weight := 0.005,
    lastSeen := some 0, sessionCount := 1, broader := [], narrower := [],
    related := [], bandit := none }

noncomputable def gC3x : Graph :=
  { version := 1,
    meta := { totalSessions := 0, lastUpdated := "", halfLifeDays := 90 },
    concepts := [("a", cC3x)], edges := [] }

/-- Concrete graph for the C3 witness: a decayed concept far below the
pruning threshold, with an edge referencing it. -/
noncomputable def cC3 : GConcept :=
  { labels := [("en", "faded")], category := "general", weight := 0.005,
    lastSeen := some 0, sessionCount := 1, broader := [], narrower := [],
    related := [], bandit := none }

noncomputable def gC3 : Graph :=
  { version := 1,
    meta := { totalSessions := 0, lastUpdated := "", halfLifeDays := 90 },
    concepts := [("a", cC3)],
    edges := [{ src := "a", tgt := "b", w := 1, lastSeen := 0 }] }

/-- Concrete graph for C4: a single concept last seen 100 days before today. -/
noncomputable def cC4 : GConcept :=
  { labels := [("en", "old-topic")], category := "general", weight := 1,
    lastSeen := some 0, sessionCount := 1, broader := [], narrower := [],
    related := [], bandit := none }

noncomputable def gC4 : Graph :=
  { version := 1,
    meta := { totalSessions := 0, lastUpdated := "", halfLifeDays := 90 },
    concepts := [("a", cC4)], edges := [] }

/-- Concrete graph for the C5 witness: a single eligible concept. -/
noncomputable def cC5 : GConcept :=
  { labels := [("en", "fresh")], category := "general", weight := 1,
    lastSeen := none, sessionCount := 1, broader := [], narrower := [],
    related := [], bandit := none }

noncomputable def gC5 : Graph :=
  { version := 1,
    meta := { totalSessions := 0, lastUpdated := "", halfLifeDays := 90 },
    concepts := [("a", cC5)], edges := [] }

/-- Embedding of _empty_graph. -/
def empty_graph : Graph :=
  { version := 1,
    meta := { totalSessions := 0, lastUpdated := "", halfLifeDays := 90 },
    concepts := [], edges := [] }

/-- Canonical (min, max) key of an edge, used for edge_map. -/
def canonKey (e : Edge) : String × String := (min e.src e.tgt, max e.src e.tgt)

/-- Python dict access for pair-keyed dicts, first binding wins. -/
def lookupKey {α : Type} : List ((String × String) × α) → (String × String) → Option α
  | [], _ => none
  | p :: rest, k => if p.1 = k then some p.2 else lookupKey rest k

/-- Dict comprehension building edge_map over enumerate(edges): a later index
overwrites an earlier one for the same canonical key, so bindings are listed
most-recent-first. -/
def buildEdgeMapFrom (i : ℕ) : List Edge → List ((String × String) × ℕ)
  | [] => []
  | e :: rest => buildEdgeMapFrom (i + 1) rest ++ [(canonKey e, i)]

def buildEdgeMap (edges : List Edge) : List ((String × String) × ℕ) :=
  buildEdgeMapFrom 0 edges

/-- In-place update of the i-th list element (the graph edges list mutation). -/
def updAt {α : Type} : List α → ℕ → (α → α) → List α
  | [], _, _ => []
  | x :: xs, 0, f => f x :: xs
  | x :: xs, n + 1, f => x :: updAt xs n f

/-- Pair loop of record_cooccurrences: for each canonical pair, either bump
the weight and lastSeen of the mapped edge, or append a fresh edge of weight 1
and register its index in the map. -/
def recordPairs (today : ℤ) : List (String × String) → List Edge →
    List ((String × String) × ℕ) → List Edge × List ((String × String) × ℕ)
  | [], es, m => (es, m)
  | (a, b) :: rest, es, m =>
    let key := (min a b, max a b)
    match lookupKey m key with
    | some i => recordPairs today rest
        (updAt es i fun e => { e with w := e.w + 1, lastSeen := today }) m
    | none => recordPairs today rest
        (es ++ [{ src := key.1, tgt := key.2, w := 1, lastSeen := today }])
        ((key, es.length) :: m)

/-- Python expression sorted(set(keywords)). -/
def sortedDedup (l : List String) : List String :=
  List.insertionSort (· ≤ ·) l.dedup

/-- itertools.combinations over a list: ordered pairs (l i, l j) with i < j. -/
def pairsOf {α : Type} : List α → List (α × α)
  | [] => []
  | x :: xs => (xs.map fun y => (x, y)) ++ pairsOf xs

/-- Embedding of record_cooccurrences. -/
def record_cooccurrences (g : Graph) (keywords : List String) (today : ℤ) : Graph :=
  { g with edges := (recordPairs today (pairsOf (sortedDedup keywords)) g.edges
      (buildEdgeMap g.edges)).1 }

/-- Oriented endpoints of an edge as stored. -/
def ends (e : Edge) : String × String := (e.src, e.tgt)

/-- Python set modelled as an insertion-ordered duplicate-free list. -/
def setInsert (l : List String) (v : String) : List String :=
  if v ∈ l then l else l ++ [v]

/-- Python statement adj.setdefault(k, set()).add(v) on an insertion-ordered
dict of sets: update the binding of k in place, or append a new key at the
end. -/
def adjAddSet : List (String × List String) → String → String →
    List (String × List String)
  | [], k, v => [(k, [v])]
  | (k', s) :: rest, k, v =>
    if k' = k then (k', setInsert s v) :: rest else (k', s) :: adjAddSet rest k v

/-- Combined adjacency of find_gaps: co-occurrence edges in both directions,
then the broader/narrower/related relations of every concept, both
directions. -/
def buildAdjAll (g : Graph) : List (String × List String) :=
  g.concepts.foldl (fun m p =>
    (p.2.broader ++ p.2.narrower ++ p.2.related).foldl
      (fun m other => adjAddSet (adjAddSet m p.1 other) other p.1) m)
    (g.edges.foldl (fun m e => adjAddSet (adjAddSet m e.src e.tgt) e.tgt e.src) [])

/-- Python expression adj.get(node, set()). -/
def adjOf (m : List (String × List String)) (k : String) : List String :=
  (lookupId m k).getD []

/-- Python set intersection adj[a] & adj[b]; both operands are duplicate-free
lists by construction, so the length of the filter is the cardinality. -/
def interOf (s₁ s₂ : List String) : List String := s₁.filter (· ∈ s₂)

/-- Body of the pair scan of find_gaps: skip directly adjacent pairs, record a
gap when the neighbour sets share at least two nodes.  Python's sorted(shared)
is the ascending insertion sort of the duplicate-free intersection list. -/
def gapOf (m : List (String × List String)) (p : String × String) :
    Option (String × String × ℕ × List String) :=
  if p.2 ∈ adjOf m p.1 then none
  else
    let shared := interOf (adjOf m p.1) (adjOf m p.2)
    if 2 ≤ shared.length then
      some (p.1, p.2, shared.length, List.insertionSort (· ≤ ·) shared)
    else none

/-- Embedding of find_gaps.  The source's seen set never rejects anything
because the node list (dict keys) is duplicate-free, so it is not modelled. -/
def find_gaps (g : Graph) (n : ℕ) (maxNodes : ℕ) :
    List (String × String × ℕ × List String) :=
  let m := buildAdjAll g
  let nodes := m.map Prod.fst
  if maxNodes < nodes.length then []
  else
    (sortDescBy (fun t => t.2.2.1) ((pairsOf nodes).filterMap (gapOf m))).take n

/-- Symmetry of an adjacency-of-sets map. -/
def AdjSym (m : List (String × List String)) : Prop :=
  ∀ u w, u ∈ adjOf m w ↔ w ∈ adjOf m u

/-- Concrete graph for the C8 witness: the spec's gap example, nodes
a, b, d, e with edges a-d, a-e, b-d, b-e and no a-b edge. -/
def gC8 : Graph :=
  { version := 1,
    meta := { totalSessions := 0, lastUpdated := "", halfLifeDays := 90 },
    concepts := [],
    edges := [{ src := "a", tgt := "d", w := 1, lastSeen := 0 },
               { src := "a", tgt := "e", w := 1, lastSeen := 0 },
               { src := "b", tgt := "d", w := 1, lastSeen := 0 },
               { src := "b", tgt := "e", w := 1, lastSeen := 0 }] }

/-- Python statement adj.setdefault(k, []).append(v) on an insertion-ordered
dict of lists: append v to the binding of k in place, or append a new key at
the end. -/
def adjAddList : List (String × List String) → String → String →
    List (String × List String)
  | [], k, v => [(k, [v])]
  | (k', s) :: rest, k, v =>
    if k' = k then (k', s ++ [v]) :: rest else (k', s) :: adjAddList rest k v

/-- Weight-filtered co-occurrence adjacency of detect_communities. -/
def buildAdjW (edges : List Edge) (minEdgeWeight : ℤ) : List (String × List String) :=
  edges.foldl (fun m e =>
    if e.w < minEdgeWeight then m
    else adjAddList (adjAddList m e.src e.tgt) e.tgt e.src) []

/-- Python expression labels.get(n, n). -/
def labelsGet (ls : List (String × String)) (k : String) : String :=
  (lookupId ls k).getD k

/-- Python assignment labels[node] = v: replace the first binding in place
(appending when absent, which never happens here since labels is keyed by
every adjacency node). -/
def labelsSet : List (String × String) → String → String → List (String × String)
  | [], k, v => [(k, v)]
  | (k', s) :: rest, k, v =>
    if k' = k then (k', v) :: rest else (k', s) :: labelsSet rest k v

/-- Python expression Counter(neighbor_labels).most_common(1)[0][0]: the
first-encountered label of maximal multiplicity (most_common is stable on
first-insertion order for ties). -/
def mostCommonLabel : List String → String
  | [] => ""
  | x :: xs => xs.foldl (fun best y =>
      if (x :: xs).count best < (x :: xs).count y then y else best) x

/-- One round of label propagation over the adjacency keys in insertion
order, reading and writing the labels map in place as the source loop does. -/
def propRound (adjm : List (String × List String)) :
    List String → List (String × String) → Bool → List (String × String) × Bool
  | [], ls, ch => (ls, ch)
  | node :: rest, ls, ch =>
    if (lookupId adjm node).getD [] = [] then propRound adjm rest ls ch
    else
      if (lookupId ls node).getD node ≠
          mostCommonLabel (((lookupId adjm node).getD []).map (labelsGet ls)) then
        propRound adjm rest (labelsSet ls node
          (mostCommonLabel (((lookupId adjm node).getD []).map (labelsGet ls)))) true
      else propRound adjm rest ls ch

/-- Up to ten rounds of label propagation with early exit when a full round
makes no change. -/
def propagate (adjm : List (String × List String)) :
    ℕ → List (String × String) → List (String × String)
  | 0, ls => ls
  | k + 1, ls =>
    if (propRound adjm (adjm.map Prod.fst) ls false).2 then
      propagate adjm k (propRound adjm (adjm.map Prod.fst) ls false).1
    else (propRound adjm (adjm.map Prod.fst) ls false).1

/-- Python statement communities.setdefault(label, []).append(node). -/
def addToGroup (gs : List (String × List String)) (label node : String) :
    List (String × List String) := adjAddList gs label node

/-- Embedding of detect_communities. -/
def detect_communities (g : Graph) (minEdgeWeight : ℤ) :
    List (String × List String) :=
  let adjm := buildAdjW g.edges minEdgeWeight
  let final := propagate adjm 10 (adjm.map fun p => (p.1, p.1))
  final.foldl (fun gs p => addToGroup gs p.2 p.1) []

/-- State-passing wrapper of suggest_topics over the mutable program state
(graph, global generator state): the statement-by-statement translation
threads the state through the call; no statement of suggest_topics assigns to
the graph, so the graph component passes through unchanged while the
generator state advances. -/
noncomputable def suggestState (s : Graph × ℕ) (n : ℕ) (recent : List String)
    (seed : Option ℕ) (today : ℤ) : (List (String × ℝ × String)) × (Graph × ℕ) :=
  ((suggest_topics s.1 n recent seed today s.2).1,
    (s.1, (suggest_topics s.1 n recent seed today s.2).2))

/-- State-passing wrapper of detect_communities: the source reads the graph
and mutates only its own local adj, labels and communities dicts. -/
def detectState (s : Graph × ℕ) (minEdgeWeight : ℤ) :
    (List (String × List String)) × (Graph × ℕ) :=
  (detect_communities s.1 minEdgeWeight, s)

/-- State-passing wrapper of find_gaps: the source reads the graph and
mutates only its own local adj, seen and gaps collections. -/
def findGapsState (s : Graph × ℕ) (n maxNodes : ℕ) :
    (List (String × String × ℕ × List String)) × (Graph × ℕ) :=
  (find_gaps s.1 n maxNodes, s)

/-- ASCII whitespace for the model of str.strip. -/
def isSpaceChar (c : Char) : Bool :=
  c = ' ' || c = '\t' || c = '\n' || c = '\r' || c = '\x0b' || c = '\x0c'

/-- Python str.strip. -/
def trimChars (l : List Char) : List Char :=
  ((l.dropWhile isSpaceChar).reverse.dropWhile isSpaceChar).reverse

/-- Python str.lower on ASCII letters (the data handled here is ASCII). -/
def lowerChar (c : Char) : Char :=
  if 'A' ≤ c ∧ c ≤ 'Z' then Char.ofNat (c.toNat + 32) else c

def lowerChars (l : List Char) : List Char := l.map lowerChar

/-- Python str.split on a single separator character, keeping empty pieces. -/
def splitChar (sep : Char) : List Char → List (List Char)
  | [] => [[]]
  | c :: rest =>
    match splitChar sep rest with
    | [] => [[]]
    | piece :: pieces =>
      if c = sep then [] :: piece :: pieces else (c :: piece) :: pieces

/-- Python str.startswith. -/
def leadMatch : List Char → List Char → Bool
  | [], _ => true
  | _ :: _, [] => false
  | p :: ps, c :: cs => if p = c then leadMatch ps cs else false

/-- Python str.replace, every non-overlapping occurrence left to right; the
fuel is the input length, which suffices for the non-empty patterns used. -/
def replaceFuel (pat rep : List Char) : ℕ → List Char → List Char
  | 0, l => l
  | _ + 1, [] => []
  | fuel + 1, c :: rest =>
    if leadMatch pat (c :: rest) then
      rep ++ replaceFuel pat rep fuel ((c :: rest).drop pat.length)
    else c :: replaceFuel pat rep fuel rest

def replaceAll (l pat rep : List Char) : List Char :=
  replaceFuel pat rep l.length l

def parseDigits (l : List Char) : Option ℕ :=
  if l = [] then none
  else l.foldl (fun acc c =>
    match acc with
    | none => none
    | some n => if c.isDigit then some (n * 10 + (c.toNat - 48)) else none) (some 0)

/-- Python int(v) on an already stripped string: an optional sign followed by
digits (the source's int also tolerates underscores between digits, which
never occur in the data handled here). -/
def parseIntChars (l : List Char) : Option ℤ :=
  match l with
  | '-' :: rest => (parseDigits rest).map fun n => -(n : ℤ)
  | '+' :: rest => (parseDigits rest).map fun n => (n : ℤ)
  | _ => (parseDigits l).map fun n => (n : ℤ)

/-- Python regex match of r"## (.+)" anchored at the start: the line starts
with "## " followed by at least one character; the capture is the rest of the
line, stripped by the caller. -/
def matchCat (line : List Char) : Option (List Char) :=
  if leadMatch "## ".data line then
    if 3 < line.length then some (trimChars (line.drop 3)) else none
  else none

/-- Python regex match of the keywords line pattern: after the literal prefix,
the greedy capture extends to the last closing bracket of the line and must be
non-empty; trailing characters after it are ignored by re.match. -/
def matchKw (line : List Char) : Option (List Char) :=
  if leadMatch "- **keywords**: [".data line then
    let pieces := splitChar ']' (line.drop "- **keywords**: [".data.length)
    if 2 ≤ pieces.length then
      let raw := List.intercalate [']'] pieces.dropLast
      if raw = [] then none else some raw
    else none
  else none

/-- Frontmatter scan of migrate_from_markdown: between the first two ---
lines, the last parseable session_count value wins. -/
def fmScan : List (List Char) → Bool → ℤ → ℤ
  | [], _, acc => acc
  | line :: rest, inFm, acc =>
    if trimChars line = "---".data then
      if inFm then acc else fmScan rest true acc
    else if inFm ∧ line.contains ':' then
      if trimChars (line.takeWhile (· ≠ ':')) = "session_count".data then
        match parseIntChars (trimChars ((line.dropWhile (· ≠ ':')).tail)) with
        | some n => fmScan rest inFm n
        | none => fmScan rest inFm acc
      else fmScan rest inFm acc
    else fmScan rest inFm acc

def excludedTitles : List (List Char) :=
  ["Recently Explored".data, "Explored Topics Archive".data,
   "Suggested Next Directions".data, "User Interests".data]

def slugChars (kw : List Char) : List Char :=
  replaceAll (lowerChars kw) " ".data "-".data

def catSlug (title : List Char) : List Char :=
  replaceAll (replaceAll (lowerChars title) " & ".data "-".data) " ".data "-".data

/-- Concept creation of migrate_from_markdown: insert the slug if absent. -/
noncomputable def addMigratedConcept (todayD : ℤ) (category : List Char)
    (cs : List (String × GConcept)) (kw : List Char) : List (String × GConcept) :=
  let slug := String.mk (slugChars kw)
  if slug ∈ cs.map Prod.fst then cs
  else cs ++ [(slug,
    { labels := [("en", String.mk kw)], category := String.mk category,
      weight := 1.0, lastSeen := some todayD, sessionCount := 1,
      broader := if category = "general".data then [] else [String.mk category],
      narrower := [], related := [], bandit := some { alpha := 1, beta := 1 } })]

/-- Edges of migrate_from_markdown: adjacent keyword slugs, canonical order,
self-pairs skipped. -/
def adjacentEdges (todayD : ℤ) : List String → List Edge
  | a :: b :: rest =>
    (if a ≠ b then
      [{ src := min a b, tgt := max a b, w := 1, lastSeen := todayD }] else [])
      ++ adjacentEdges todayD (b :: rest)
  | _ => []

/-- Body scan of migrate_from_markdown: category headers switch the current
category (None for the excluded section titles), keyword lines create the
missing concepts and the adjacent co-occurrence edges. -/
noncomputable def bodyScan (todayD : ℤ) : List (List Char) → Option (List Char) →
    List (String × GConcept) → List Edge → List (String × GConcept) × List Edge
  | [], _, cs, es => (cs, es)
  | line :: rest, cat, cs, es =>
    match matchCat line with
    | some title =>
      if title ∈ excludedTitles then bodyScan todayD rest none cs es
      else bodyScan todayD rest (some (catSlug title)) cs es
    | none =>
      match cat with
      | none => bodyScan todayD rest none cs es
      | some category =>
        match matchKw line with
        | none => bodyScan todayD rest (some category) cs es
        | some raw =>
          let keywords := (splitChar ',' raw).map trimChars
          bodyScan todayD rest (some category)
            (keywords.foldl (addMigratedConcept todayD category) cs)
            (es ++ adjacentEdges todayD (keywords.map fun kw =>
              String.mk (slugChars kw)))

/-- Embedding of migrate_from_markdown over the markdown file content; todayD
and todayStr are the current date as epoch day and as its YYYY-MM-DD
rendering.  The saving side effect writes the same document it returns. -/
noncomputable def migrate_from_markdown (content : String) (todayD : ℤ)
    (todayStr : String) : Graph :=
  let lines := splitChar '\n' content.data
  let body := bodyScan todayD lines (some "general".data) [] []
  { version := 1,
    meta := { totalSessions := fmScan lines false 0, lastUpdated := todayStr,
              halfLifeDays := 90 },
    concepts := body.1,
    edges := body.2 }

/-- Embedding of load_graph over an abstract file-system state: store is none
when the graph file is absent, some none when it exists but holds invalid
JSON (json.load raises), and some (some g) when it parses to g; md is the
legacy markdown file's content when that file exists.  The stdlib JSON parser
is an external collaborator abstracted by this three-way input. -/
noncomputable def load_graph (store : Option (Option Graph)) (md : Option String)
    (todayD : ℤ) (todayStr : String) : Graph :=
  match store with
  | none =>
    match md with
    | some content => migrate_from_markdown content todayD todayStr
    | none => empty_graph
  | some none => empty_graph
  | some (some g) => g

/-- Unfolding of the first component of suggest_topics. -/
theorem suggest_topics_fst (g : Graph) (n : ℕ) (recent : List String)
    (seed : Option ℕ) (today : ℤ) (rs : ℕ) :
    (suggest_topics g n recent seed today rs).1
      = (sortDescBy (fun t : String × ℝ × String => t.2.1)
          (suggestCandidates g.meta.halfLifeDays today recent g.concepts
            (match seed with | some s => seedState s | none => rs)).1).take n := rfl

/-- C1: for every graph, every n, every exclusion set and every seed value,
two calls to suggest with the same seed and the same graph state return
identical ordered (id, score, reason) lists, whatever the ambient global
generator state of each of the two calls was. -/
theorem suggest_deterministic (g : Graph) (n : ℕ) (recent : List String) (s : ℕ)
    (today : ℤ) (rs₁ rs₂ : ℕ) :
    (suggest_topics g n recent (some s) today rs₁).1 =
      (suggest_topics g n recent (some s) today rs₂).1 := rfl

/-- Permutation property of descending insertion. -/
theorem insertDescBy_perm {α β : Type} [LinearOrder β] (key : α → β) (x : α)
    (l : List α) : List.Perm (insertDescBy key x l) (x :: l) := by
  induction l with
  | nil => simp [insertDescBy]
  | cons y ys ih =>
    rw [insertDescBy]
    split
    · exact List.Perm.refl _
    · exact (ih.cons y).trans (List.Perm.swap x y ys)

/-- Sortedness is preserved by descending insertion. -/
theorem insertDescBy_sorted {α β : Type} [LinearOrder β] (key : α → β) (x : α)
    (l : List α) (h : l.Pairwise fun a b => key b ≤ key a) :
    (insertDescBy key x l).Pairwise fun a b => key b ≤ key a := by
  induction l with
  | nil => simp [insertDescBy]
  | cons y ys ih =>
    rw [insertDescBy]
    rcases List.pairwise_cons.mp h with ⟨hy, hys⟩
    split
    · next hle =>
      refine List.pairwise_cons.mpr ⟨?_, h⟩
      intro z hz
      rcases List.mem_cons.mp hz with rfl | hz
      · exact hle
      · exact le_trans (hy z hz) hle
    · next hgt =>
      refine List.pairwise_cons.mpr ⟨?_, ih hys⟩
      intro z hz
      have hz' := (insertDescBy_perm key x ys).mem_iff.mp hz
      rcases List.mem_cons.mp hz' with rfl | hz'
      · exact le_of_lt (not_le.mp hgt)
      · exact hy z hz'

/-- The descending insertion sort returns a permutation of its input. -/
theorem sortDescBy_perm {α β : Type} [LinearOrder β] (key : α → β) (l : List α) :
    List.Perm (sortDescBy key l) l := by
  induction l with
  | nil => exact List.Perm.refl _
  | cons x xs ih => exact (insertDescBy_perm key x _).trans (ih.cons x)

/-- The descending insertion sort sorts by nonincreasing key. -/
theorem sortDescBy_sorted {α β : Type} [LinearOrder β] (key : α → β) (l : List α) :
    (sortDescBy key l).Pairwise fun a b => key b ≤ key a := by
  induction l with
  | nil => simp [sortDescBy]
  | cons x xs ih => exact insertDescBy_sorted key x _ ih

theorem lookupId_eq_none {α : Type} (l : List (String × α)) (k : String)
    (h : k ∉ l.map Prod.fst) : lookupId l k = none := by
  induction l with
  | nil => rfl
  | cons p rest ih =>
    rw [lookupId]
    rw [List.map_cons, List.mem_cons] at h
    push_neg at h
    rw [if_neg (fun hp => h.1 hp.symm)]
    exact ih h.2

theorem lookupId_eq_none_iff {α : Type} (l : List (String × α)) (k : String) :
    lookupId l k = none ↔ k ∉ l.map Prod.fst := by
  induction l with
  | nil => simp [lookupId]
  | cons p rest ih =>
    rw [lookupId]
    rcases eq_or_ne p.1 k with h | h
    · subst h
      simp
    · rw [if_neg h, ih]
      simp [Ne.symm h]

theorem lookupId_of_mem {α : Type} {l : List (String × α)} {k : String} {c : α}
    (hk : (l.map Prod.fst).Nodup) (h : (k, c) ∈ l) : lookupId l k = some c := by
  induction l with
  | nil => simp at h
  | cons p rest ih =>
    rw [List.map_cons, List.nodup_cons] at hk
    rw [lookupId]
    rcases List.mem_cons.mp h with rfl | h'
    · simp
    · rcases eq_or_ne p.1 k with he | he
      · exact absurd (List.mem_map_of_mem Prod.fst h') (he ▸ hk.1)
      · rw [if_neg he]
        exact ih hk.2 h'

theorem mem_of_lookupId {α : Type} {l : List (String × α)} {k : String} {c : α}
    (h : lookupId l k = some c) : (k, c) ∈ l := by
  induction l with
  | nil => simp [lookupId] at h
  | cons p rest ih =>
    rw [lookupId] at h
    rcases eq_or_ne p.1 k with he | he
    · rw [if_pos he] at h
      injection h with h
      subst he
      subst h
      simp
    · rw [if_neg he] at h
      exact List.mem_cons_of_mem p (ih h)

theorem keys_unique {α : Type} {l : List (String × α)} {k : String} {a b : α}
    (hk : (l.map Prod.fst).Nodup) (ha : (k, a) ∈ l) (hb : (k, b) ∈ l) : a = b := by
  have h1 := lookupId_of_mem hk ha
  have h2 := lookupId_of_mem hk hb
  rw [h1] at h2
  exact Option.some.inj h2

theorem decay_keys_nodup (l : List (String × GConcept)) (f : GConcept → GConcept × Bool)
    (hk : (l.map Prod.fst).Nodup) :
    ((((l.map fun p => (p.1, f p.2)).filter fun p => !p.2.2).map
      fun p => (p.1, p.2.1)).map Prod.fst).Nodup := by
  have h1 : ((((l.map fun p => (p.1, f p.2)).filter fun p => !p.2.2).map
      fun p => (p.1, p.2.1)).map Prod.fst)
      = ((l.map fun p => (p.1, f p.2)).filter fun p => !p.2.2).map Prod.fst := by
    simp [List.map_map, Function.comp]
  rw [h1]
  have h2 : List.Sublist (((l.map fun p => (p.1, f p.2)).filter fun p => !p.2.2).map
      Prod.fst) ((l.map fun p => (p.1, f p.2)).map Prod.fst) :=
    (List.filter_sublist _).map Prod.fst
  have h3 : (l.map fun p => (p.1, f p.2)).map Prod.fst = l.map Prod.fst := by
    simp [List.map_map, Function.comp]
  exact List.Nodup.sublist (h3 ▸ h2) hk

/-- Looking a key up after the decay-and-prune pass: with unique keys, the
result is the decayed concept unless it was queued for removal. -/
theorem lookupId_decay (l : List (String × GConcept)) (f : GConcept → GConcept × Bool)
    (k : String) (c : GConcept) (hk : (l.map Prod.fst).Nodup)
    (hc : lookupId l k = some c) :
    lookupId (((l.map fun p => (p.1, f p.2)).filter fun p => !p.2.2).map
        fun p => (p.1, p.2.1)) k =
      if (f c).2 then none else some (f c).1 := by
  have hmem := mem_of_lookupId hc
  by_cases hflag : (f c).2
  · rw [if_pos hflag, lookupId_eq_none_iff]
    intro hmem'
    rcases List.mem_map.mp hmem' with ⟨p, hp, hpk⟩
    rcases List.mem_map.mp hp with ⟨r, hr, rfl⟩
    rcases List.mem_filter.mp hr with ⟨hr1, hr2⟩
    rcases List.mem_map.mp hr1 with ⟨q, hq, rfl⟩
    simp only at hpk hr2
    have hql : (k, q.2) ∈ l := by
      rw [← hpk]
      simpa using hq
    have hqc : q.2 = c := keys_unique hk hql hmem
    rw [hqc] at hr2
    simp [hflag] at hr2
  · rw [if_neg hflag]
    apply lookupId_of_mem (decay_keys_nodup l f hk)
    refine List.mem_map.mpr ⟨(k, f c), ?_, rfl⟩
    refine List.mem_filter.mpr ⟨List.mem_map.mpr ⟨(k, c), hmem, rfl⟩, ?_⟩
    simp [hflag]

/-- Membership of a key in the removal queue, with unique keys. -/
theorem mem_toRemove (l : List (String × GConcept)) (f : GConcept → GConcept × Bool)
    (k : String) (c : GConcept) (hk : (l.map Prod.fst).Nodup)
    (hc : lookupId l k = some c) :
    (k ∈ ((l.map fun p => (p.1, f p.2)).filter fun p => p.2.2).map fun p => p.1) ↔
      (f c).2 = true := by
  have hmem := mem_of_lookupId hc
  constructor
  · intro h
    rcases List.mem_map.mp h with ⟨p, hp, hpk⟩
    rcases List.mem_filter.mp hp with ⟨hp1, hp2⟩
    rcases List.mem_map.mp hp1 with ⟨q, hq, rfl⟩
    simp only at hpk hp2
    have hql : (k, q.2) ∈ l := by
      rw [← hpk]
      simpa using hq
    have hqc : q.2 = c := keys_unique hk hql hmem
    rw [hqc] at hp2
    exact hp2
  · intro hflag
    refine List.mem_map.mpr ⟨(k, f c), ?_, rfl⟩
    refine List.mem_filter.mpr ⟨List.mem_map.mpr ⟨(k, c), hmem, rfl⟩, ?_⟩
    simp [hflag]

theorem contains_eq_false_iff {l : List String} {x : String} :
    l.contains x = false ↔ x ∉ l := by
  induction l with
  | nil => simp
  | cons y ys ih =>
    rcases eq_or_ne x y with rfl | h
    · simp
    · simp [List.contains_cons, h, ih]

/-- C2: for a concept with a parseable lastSeen d, apply_decay leaves the
concept unchanged when days = today - lastSeen is not positive (in particular
on the same day), and otherwise multiplies its weight by exactly
2^(-days/halfLifeDays); with positive halfLifeDays a positive weight therefore
strictly decreases whenever days > 0. -/
theorem apply_decay_weight (g : Graph) (today : ℤ) (cid : String) (c : GConcept)
    (d : ℤ) (hk : (g.concepts.map Prod.fst).Nodup)
    (hc : lookupId g.concepts cid = some c) (hd : c.lastSeen = some d)
    (hhl : 0 < g.meta.halfLifeDays) :
    (today - d ≤ 0 → lookupId (apply_decay g today).concepts cid = some c) ∧
    (0 < today - d →
      (∀ c', lookupId (apply_decay g today).concepts cid = some c' →
        c'.weight = c.weight *
          (2 : ℝ) ^ (-(((today - d) : ℤ) : ℝ) / (g.meta.halfLifeDays : ℝ))) ∧
      (0 < c.weight →
        c.weight * (2 : ℝ) ^ (-(((today - d) : ℤ) : ℝ) / (g.meta.halfLifeDays : ℝ))
          < c.weight)) := by
  have hconc : (apply_decay g today).concepts =
      ((g.concepts.map fun p => (p.1, decayStep g.meta.halfLifeDays today p.2)).filter
        fun p => !p.2.2).map fun p => (p.1, p.2.1) := rfl
  have hstep := lookupId_decay g.concepts (decayStep g.meta.halfLifeDays today) cid c hk hc
  constructor
  · intro hdays
    have hdec : decayStep g.meta.halfLifeDays today c = (c, false) := by
      simp only [decayStep, hd]
      rw [if_pos hdays]
    rw [hconc, hstep, hdec]
    simp
  · intro hdays
    have hlt : ¬(today - d ≤ 0) := not_le.mpr hdays
    have hdec : decayStep g.meta.halfLifeDays today c =
        ({ c with weight := c.weight *
            (2 : ℝ) ^ (-(((today - d) : ℤ) : ℝ) / (g.meta.halfLifeDays : ℝ)) },
          if c.weight * (2 : ℝ) ^ (-(((today - d) : ℤ) : ℝ) / (g.meta.halfLifeDays : ℝ))
              < 0.01 ∧ c.sessionCount ≤ 1 then true else false) := by
      simp only [decayStep, hd]
      rw [if_neg hlt]
    constructor
    · intro c' hc'
      rw [hconc, hstep, hdec] at hc'
      by_cases hcond : c.weight *
          (2 : ℝ) ^ (-(((today - d) : ℤ) : ℝ) / (g.meta.halfLifeDays : ℝ))
            < 0.01 ∧ c.sessionCount ≤ 1
      · rw [if_pos hcond] at hc'
        simp at hc'
      · rw [if_neg hcond] at hc'
        simp at hc'
        have hexp2 : ((d : ℝ) - (today : ℝ)) / (g.meta.halfLifeDays : ℝ)
            = -(((today - d) : ℤ) : ℝ) / (g.meta.halfLifeDays : ℝ) := by
          push_cast
          ring
        rw [← hc', hexp2]
    · intro hw
      have hdpos : (0 : ℝ) < ((today - d : ℤ) : ℝ) := by exact_mod_cast hdays
      have hhlpos : (0 : ℝ) < (g.meta.halfLifeDays : ℝ) := by exact_mod_cast hhl
      have hexp : (-(((today - d) : ℤ) : ℝ) / (g.meta.halfLifeDays : ℝ)) < 0 := by
        apply div_neg_of_neg_of_pos _ hhlpos
        linarith
      have hfac : (2 : ℝ) ^ (-(((today - d) : ℤ) : ℝ) / (g.meta.halfLifeDays : ℝ)) < 1 :=
        Real.rpow_lt_one_of_one_lt_of_neg one_lt_two hexp
      exact mul_lt_of_lt_one_right hw hfac

/-- Witness for C2 at the concrete graph gC2 with today = 30. -/
theorem apply_decay_weight_witness :
    ((30 : ℤ) - 0 ≤ 0 → lookupId (apply_decay gC2 30).concepts "a" = some cC2) ∧
    (0 < (30 : ℤ) - 0 →
      (∀ c', lookupId (apply_decay gC2 30).concepts "a" = some c' →
        c'.weight = cC2.weight *
          (2 : ℝ) ^ (-((((30 : ℤ) - 0) : ℤ) : ℝ) / (gC2.meta.halfLifeDays : ℝ))) ∧
      (0 < cC2.weight →
        cC2.weight * (2 : ℝ) ^ (-((((30 : ℤ) - 0) : ℤ) : ℝ) / (gC2.meta.halfLifeDays : ℝ))
          < cC2.weight)) :=
  apply_decay_weight gC2 30 "a" cC2 0 (by decide) rfl rfl (by decide)

/-- C3 (amended): with unique concept ids, a concept that was decayed by this
pass (parseable lastSeen with days > 0) is removed by apply_decay iff its
post-decay weight is below 0.01 and its sessionCount is at most 1; a concept
that was not decayed (absent or unparseable lastSeen, or days <= 0) is never
removed even if its weight is below 0.01; a concept with sessionCount > 1 is
never removed; and every edge referencing a removed id is removed. -/
theorem apply_decay_prune (g : Graph) (today : ℤ) (cid : String) (c : GConcept)
    (hk : (g.concepts.map Prod.fst).Nodup)
    (hc : lookupId g.concepts cid = some c) :
    (∀ d, c.lastSeen = some d → 0 < today - d →
      (lookupId (apply_decay g today).concepts cid = none ↔
        (c.weight * (2 : ℝ) ^ (-(((today - d) : ℤ) : ℝ) / (g.meta.halfLifeDays : ℝ))
            < 0.01 ∧ c.sessionCount ≤ 1))) ∧
    ((c.lastSeen = none ∨ ∃ d, c.lastSeen = some d ∧ today - d ≤ 0) →
      lookupId (apply_decay g today).concepts cid ≠ none) ∧
    (1 < c.sessionCount → lookupId (apply_decay g today).concepts cid ≠ none) ∧
    (lookupId (apply_decay g today).concepts cid = none →
      ∀ e ∈ (apply_decay g today).edges, e.src ≠ cid ∧ e.tgt ≠ cid) := by
  have hconc : (apply_decay g today).concepts =
      ((g.concepts.map fun p => (p.1, decayStep g.meta.halfLifeDays today p.2)).filter
        fun p => !p.2.2).map fun p => (p.1, p.2.1) := rfl
  have hedges : (apply_decay g today).edges = g.edges.filter fun e =>
      !((((g.concepts.map fun p =>
            (p.1, decayStep g.meta.halfLifeDays today p.2)).filter
          fun p => p.2.2).map fun p => p.1).contains e.src) &&
      !((((g.concepts.map fun p =>
            (p.1, decayStep g.meta.halfLifeDays today p.2)).filter
          fun p => p.2.2).map fun p => p.1).contains e.tgt) := rfl
  have hstep := lookupId_decay g.concepts (decayStep g.meta.halfLifeDays today) cid c hk hc
  have hrem := mem_toRemove g.concepts (decayStep g.meta.halfLifeDays today) cid c hk hc
  refine ⟨?_, ?_, ?_, ?_⟩
  · intro d hd hdays
    have hlt : ¬(today - d ≤ 0) := not_le.mpr hdays
    have hdec : decayStep g.meta.halfLifeDays today c =
        ({ c with weight := c.weight *
            (2 : ℝ) ^ (-(((today - d) : ℤ) : ℝ) / (g.meta.halfLifeDays : ℝ)) },
          if c.weight * (2 : ℝ) ^ (-(((today - d) : ℤ) : ℝ) / (g.meta.halfLifeDays : ℝ))
              < 0.01 ∧ c.sessionCount ≤ 1 then true else false) := by
      simp only [decayStep, hd]
      rw [if_neg hlt]
    rw [hconc, hstep, hdec]
    by_cases hcond : c.weight *
        (2 : ℝ) ^ (-(((today - d) : ℤ) : ℝ) / (g.meta.halfLifeDays : ℝ))
          < 0.01 ∧ c.sessionCount ≤ 1
    · rw [if_pos hcond]
      exact iff_of_true (by simp) hcond
    · rw [if_neg hcond]
      exact iff_of_false (by simp) hcond
  · intro hskip
    have hdec : decayStep g.meta.halfLifeDays today c = (c, false) := by
      rcases hskip with hnone | ⟨d, hd, hdays⟩
      · simp only [decayStep, hnone]
      · simp only [decayStep, hd]
        rw [if_pos hdays]
    rw [hconc, hstep, hdec]
    simp
  · intro hsc
    have hflag : (decayStep g.meta.halfLifeDays today c).2 = false := by
      rcases hmatch : c.lastSeen with - | d
      · simp only [decayStep, hmatch]
      · simp only [decayStep, hmatch]
        by_cases hdays : today - d ≤ 0
        · rw [if_pos hdays]
        · rw [if_neg hdays]
          have : ¬(c.weight * (2 : ℝ) ^ (-(((today - d) : ℤ) : ℝ) /
              (g.meta.halfLifeDays : ℝ)) < 0.01 ∧ c.sessionCount ≤ 1) := by
            rintro ⟨-, hle⟩
            omega
          simp only [this, if_false]
    rw [hconc, hstep, hflag]
    simp
  · intro hnone e he
    have hflag : (decayStep g.meta.halfLifeDays today c).2 = true := by
      rw [hconc, hstep] at hnone
      by_cases h : (decayStep g.meta.halfLifeDays today c).2
      · exact h
      · rw [if_neg h] at hnone
        simp at hnone
    have hmemrem : cid ∈ ((g.concepts.map fun p =>
        (p.1, decayStep g.meta.halfLifeDays today p.2)).filter
          fun p => p.2.2).map fun p => p.1 := hrem.mpr hflag
    rw [hedges] at he
    rcases List.mem_filter.mp he with ⟨-, hcond⟩
    rw [Bool.and_eq_true] at hcond
    rcases hcond with ⟨h1, h2⟩
    rw [Bool.not_eq_true'] at h1 h2
    have hs := contains_eq_false_iff.mp h1
    have ht := contains_eq_false_iff.mp h2
    exact ⟨fun hq => hs (hq ▸ hmemrem), fun hq => ht (hq ▸ hmemrem)⟩

/-- C3 counterexample to the claim as stated: after apply_decay on the day the
concept was last seen, its (unchanged) weight 0.005 is below 0.01 and its
sessionCount is 1, yet it is not removed, because the source only queues for
removal concepts that were actually decayed (days > 0). -/
theorem apply_decay_prune_cex :
    lookupId (apply_decay gC3x 0).concepts "a" = some cC3x ∧
    cC3x.weight < 0.01 ∧ cC3x.sessionCount ≤ 1 := by
  have hdec : decayStep gC3x.meta.halfLifeDays 0 cC3x = (cC3x, false) := by
    have hls : cC3x.lastSeen = some 0 := rfl
    simp only [decayStep, hls]
    norm_num
  refine ⟨?_, by norm_num [cC3x], by norm_num [cC3x]⟩
  have hstep := lookupId_decay gC3x.concepts (decayStep gC3x.meta.halfLifeDays 0)
    "a" cC3x (by decide) rfl
  have hconc : (apply_decay gC3x 0).concepts =
      ((gC3x.concepts.map fun p => (p.1, decayStep gC3x.meta.halfLifeDays 0 p.2)).filter
        fun p => !p.2.2).map fun p => (p.1, p.2.1) := rfl
  rw [hconc, hstep, hdec]
  simp

theorem suggestCandidates_nil (halfLife : ℕ) (today : ℤ) (recent : List String)
    (rs : ℕ) : suggestCandidates halfLife today recent [] rs = ([], rs) := rfl

theorem suggestCandidates_cons_skip₁ (halfLife : ℕ) (today : ℤ) (recent : List String)
    (cid : String) (c : GConcept) (rest : List (String × GConcept)) (rs : ℕ)
    (hw : c.weight < 0.05) :
    suggestCandidates halfLife today recent ((cid, c) :: rest) rs =
      suggestCandidates halfLife today recent rest rs := by
  rw [suggestCandidates, if_pos hw]

theorem suggestCandidates_cons_skip₂ (halfLife : ℕ) (today : ℤ) (recent : List String)
    (cid : String) (c : GConcept) (rest : List (String × GConcept)) (rs : ℕ)
    (hw : ¬(c.weight < 0.05)) (hr : cid ∈ recent) :
    suggestCandidates halfLife today recent ((cid, c) :: rest) rs =
      suggestCandidates halfLife today recent rest rs := by
  rw [suggestCandidates, if_neg hw, if_pos hr]

theorem suggestCandidates_cons_keep (halfLife : ℕ) (today : ℤ) (recent : List String)
    (cid : String) (c : GConcept) (rest : List (String × GConcept)) (rs : ℕ)
    (hw : ¬(c.weight < 0.05)) (hr : cid ∉ recent) :
    suggestCandidates halfLife today recent ((cid, c) :: rest) rs =
      ((cid,
        (betavariate (max (banditAlpha c) 0.1) (max (banditBeta c) 0.1) rs).1 *
          recencyOf halfLife today c *
          (1.0 + 0.3 * (1.0 / (1.0 + (connectionCount c : ℝ) * 0.1))),
        reasonFor today c) ::
          (suggestCandidates halfLife today recent rest
            (betavariate (max (banditAlpha c) 0.1) (max (banditBeta c) 0.1) rs).2).1,
        (suggestCandidates halfLife today recent rest
          (betavariate (max (banditAlpha c) 0.1) (max (banditBeta c) 0.1) rs).2).2) := by
  rw [suggestCandidates, if_neg hw, if_neg hr]

/-- Every candidate produced by the suggestion loop comes from a concept of
the walked map that passed the weight and exclusion filters, and carries the
reason string computed from that concept. -/
theorem mem_suggestCandidates (halfLife : ℕ) (today : ℤ) (recent : List String)
    (l : List (String × GConcept)) (rs : ℕ) (x : String × ℝ × String)
    (hx : x ∈ (suggestCandidates halfLife today recent l rs).1) :
    ∃ c, (x.1, c) ∈ l ∧ ¬(c.weight < 0.05) ∧ x.1 ∉ recent ∧
      x.2.2 = reasonFor today c := by
  induction l generalizing rs with
  | nil => simp [suggestCandidates_nil] at hx
  | cons p rest ih =>
    obtain ⟨cid, c⟩ := p
    by_cases hw : c.weight < 0.05
    · rw [suggestCandidates_cons_skip₁ _ _ _ _ _ _ _ hw] at hx
      rcases ih rs hx with ⟨c', hmem, h1, h2, h3⟩
      exact ⟨c', List.mem_cons_of_mem _ hmem, h1, h2, h3⟩
    · by_cases hr : cid ∈ recent
      · rw [suggestCandidates_cons_skip₂ _ _ _ _ _ _ _ hw hr] at hx
        rcases ih rs hx with ⟨c', hmem, h1, h2, h3⟩
        exact ⟨c', List.mem_cons_of_mem _ hmem, h1, h2, h3⟩
      · rw [suggestCandidates_cons_keep _ _ _ _ _ _ _ hw hr] at hx
        rcases List.mem_cons.mp hx with rfl | hx'
        · exact ⟨c, List.mem_cons_self _ _, hw, hr, rfl⟩
        · rcases ih _ hx' with ⟨c', hmem, h1, h2, h3⟩
          exact ⟨c', List.mem_cons_of_mem _ hmem, h1, h2, h3⟩

/-- Witness for C3 at the concrete graph gC3 with today = 30. -/
theorem apply_decay_prune_witness :
    (∀ d, cC3.lastSeen = some d → 0 < (30 : ℤ) - d →
      (lookupId (apply_decay gC3 30).concepts "a" = none ↔
        (cC3.weight * (2 : ℝ) ^ (-((((30 : ℤ) - d) : ℤ) : ℝ) / (gC3.meta.halfLifeDays : ℝ))
            < 0.01 ∧ cC3.sessionCount ≤ 1))) ∧
    ((cC3.lastSeen = none ∨ ∃ d, cC3.lastSeen = some d ∧ (30 : ℤ) - d ≤ 0) →
      lookupId (apply_decay gC3 30).concepts "a" ≠ none) ∧
    (1 < cC3.sessionCount → lookupId (apply_decay gC3 30).concepts "a" ≠ none) ∧
    (lookupId (apply_decay gC3 30).concepts "a" = none →
      ∀ e ∈ (apply_decay gC3 30).edges, e.src ≠ "a" ∧ e.tgt ≠ "a") :=
  apply_decay_prune gC3 30 "a" cC3 (by decide) rfl

/-- C4 (amended): the reason string attached to a suggested candidate is
exactly "revisit (not seen in a while)" if days since lastSeen > 60, else
"unexplored connection" if the candidate's connectionCount is 0, else
"strong interest" if alpha > 2*beta, else "balanced exploration". -/
theorem suggest_reason (g : Graph) (n : ℕ) (recent : List String) (seed : Option ℕ)
    (today : ℤ) (rs : ℕ) (x : String × ℝ × String) (c : GConcept)
    (hk : (g.concepts.map Prod.fst).Nodup)
    (hx : x ∈ (suggest_topics g n recent seed today rs).1)
    (hc : lookupId g.concepts x.1 = some c) :
    x.2.2 = if 60 < daysSince today c then "revisit (not seen in a while)"
      else if connectionCount c = 0 then "unexplored connection"
      else if banditAlpha c > banditBeta c * 2 then "strong interest"
      else "balanced exploration" := by
  rw [suggest_topics_fst] at hx
  have hx' := (sortDescBy_perm (fun t : String × ℝ × String => t.2.1) _).mem_iff.mp
    (List.mem_of_mem_take hx)
  rcases mem_suggestCandidates _ _ _ _ _ _ hx' with ⟨c', hmem, -, -, hreason⟩
  have hcc : c' = c := by
    have h1 := lookupId_of_mem hk hmem
    rw [hc] at h1
    exact (Option.some.inj h1).symm
  rw [hreason, hcc]
  rfl

/-- Concrete evaluation of suggest on gC4. -/
theorem suggest_gC4_eval :
    (suggest_topics gC4 5 [] (some 7) 100 0).1 =
      [("a",
        (betavariate (max (banditAlpha cC4) 0.1) (max (banditBeta cC4) 0.1)
            (seedState 7)).1 *
          recencyOf gC4.meta.halfLifeDays 100 cC4 *
          (1.0 + 0.3 * (1.0 / (1.0 + (connectionCount cC4 : ℝ) * 0.1))),
        reasonFor 100 cC4)] := by
  rw [suggest_topics_fst, show gC4.concepts = [("a", cC4)] from rfl,
    suggestCandidates_cons_keep _ _ _ _ _ _ _ (by norm_num [cC4]) (by simp),
    suggestCandidates_nil]
  simp [sortDescBy, insertDescBy]

theorem reasonFor_cC4 : reasonFor 100 cC4 = "revisit (not seen in a while)" := by
  rw [reasonFor, if_pos (show (60 : ℤ) < daysSince 100 cC4 by decide)]

/-- C4 counterexample to the claim as stated: a candidate 100 days stale gets
the reason string "revisit (not seen in a while)", not exactly "revisit". -/
theorem suggest_reason_cex :
    ((suggest_topics gC4 5 [] (some 7) 100 0).1.map fun t => t.2.2)
        = ["revisit (not seen in a while)"] ∧
    (60 : ℤ) < 100 - 0 ∧ "revisit (not seen in a while)" ≠ "revisit" := by
  refine ⟨?_, by norm_num, by decide⟩
  rw [suggest_gC4_eval]
  simp [reasonFor_cC4]

/-- Witness for C4 at the concrete graph gC4 with today = 100. -/
theorem suggest_reason_witness :
    (("a",
      (betavariate (max (banditAlpha cC4) 0.1) (max (banditBeta cC4) 0.1)
          (seedState 7)).1 *
        recencyOf gC4.meta.halfLifeDays 100 cC4 *
        (1.0 + 0.3 * (1.0 / (1.0 + (connectionCount cC4 : ℝ) * 0.1))),
      reasonFor 100 cC4) : String × ℝ × String).2.2
      = if 60 < daysSince 100 cC4 then "revisit (not seen in a while)"
        else if connectionCount cC4 = 0 then "unexplored connection"
        else if banditAlpha cC4 > banditBeta cC4 * 2 then "strong interest"
        else "balanced exploration" := by
  have hmem : (("a",
      (betavariate (max (banditAlpha cC4) 0.1) (max (banditBeta cC4) 0.1)
          (seedState 7)).1 *
        recencyOf gC4.meta.halfLifeDays 100 cC4 *
        (1.0 + 0.3 * (1.0 / (1.0 + (connectionCount cC4 : ℝ) * 0.1))),
      reasonFor 100 cC4) : String × ℝ × String)
      ∈ (suggest_topics gC4 5 [] (some 7) 100 0).1 := by
    rw [suggest_gC4_eval]
    exact List.mem_singleton.mpr rfl
  exact suggest_reason gC4 5 [] (some 7) 100 0 _ cC4 (by decide) hmem rfl

/-- C5: every id in the output of suggest names a concept of the graph with
weight at least 0.05 and is not in excludeIds; the output has at most n
entries and is sorted by score in descending order. -/
theorem suggest_output (g : Graph) (n : ℕ) (recent : List String) (seed : Option ℕ)
    (today : ℤ) (rs : ℕ) :
    (suggest_topics g n recent seed today rs).1.length ≤ n ∧
    ((suggest_topics g n recent seed today rs).1.Pairwise fun x y => y.2.1 ≤ x.2.1) ∧
    ∀ x ∈ (suggest_topics g n recent seed today rs).1,
      (∃ c, (x.1, c) ∈ g.concepts ∧ (0.05 : ℝ) ≤ c.weight) ∧ x.1 ∉ recent := by
  rw [suggest_topics_fst]
  refine ⟨List.length_take_le _ _, ?_, ?_⟩
  · exact List.Pairwise.sublist (List.take_sublist _ _)
      (sortDescBy_sorted (fun t : String × ℝ × String => t.2.1) _)
  · intro x hx
    have hx' := (sortDescBy_perm (fun t : String × ℝ × String => t.2.1) _).mem_iff.mp
      (List.mem_of_mem_take hx)
    rcases mem_suggestCandidates _ _ _ _ _ _ hx' with ⟨c, hmem, hw, hr, -⟩
    exact ⟨⟨c, hmem, not_lt.mp hw⟩, hr⟩

theorem suggest_gC5_eval :
    (suggest_topics gC5 3 ["x"] (some 1) 0 7).1 =
      [("a",
        (betavariate (max (banditAlpha cC5) 0.1) (max (banditBeta cC5) 0.1)
            (seedState 1)).1 *
          recencyOf gC5.meta.halfLifeDays 0 cC5 *
          (1.0 + 0.3 * (1.0 / (1.0 + (connectionCount cC5 : ℝ) * 0.1))),
        reasonFor 0 cC5)] := by
  rw [suggest_topics_fst, show gC5.concepts = [("a", cC5)] from rfl,
    suggestCandidates_cons_keep _ _ _ _ _ _ _ (by norm_num [cC5]) (by simp),
    suggestCandidates_nil]
  simp [sortDescBy, insertDescBy]

/-- Witness for C5 at the concrete graph gC5. -/
theorem suggest_output_witness :
    (suggest_topics gC5 3 ["x"] (some 1) 0 7).1.length ≤ 3 ∧
    ((suggest_topics gC5 3 ["x"] (some 1) 0 7).1.Pairwise fun x y => y.2.1 ≤ x.2.1) ∧
    ((∃ c, (("a" : String), c) ∈ gC5.concepts ∧ (0.05 : ℝ) ≤ c.weight) ∧
      ("a" : String) ∉ (["x"] : List String)) := by
  have h := suggest_output gC5 3 ["x"] (some 1) 0 7
  refine ⟨h.1, h.2.1, h.2.2 ("a",
    (betavariate (max (banditAlpha cC5) 0.1) (max (banditBeta cC5) 0.1)
        (seedState 1)).1 *
      recencyOf gC5.meta.halfLifeDays 0 cC5 *
      (1.0 + 0.3 * (1.0 / (1.0 + (connectionCount cC5 : ℝ) * 0.1))),
    reasonFor 0 cC5) ?_⟩
  rw [suggest_gC5_eval]
  exact List.mem_singleton.mpr rfl

theorem sortedDedup_sorted (l : List String) : (sortedDedup l).Sorted (· < ·) := by
  have h1 : (sortedDedup l).Sorted (· ≤ ·) := List.sorted_insertionSort _ _
  have h2 : (sortedDedup l).Nodup :=
    (List.perm_insertionSort _ _).nodup_iff.mpr l.nodup_dedup
  exact List.Pairwise.imp (fun h => lt_of_le_of_ne h.1 h.2) (h1.and h2)

theorem pairsOf_mem_parts {α : Type} {l : List α} {p : α × α} (hp : p ∈ pairsOf l) :
    p.1 ∈ l ∧ p.2 ∈ l := by
  induction l with
  | nil => simp [pairsOf] at hp
  | cons x xs ih =>
    rw [pairsOf, List.mem_append] at hp
    rcases hp with hp | hp
    · rcases List.mem_map.mp hp with ⟨y, hy, rfl⟩
      exact ⟨List.mem_cons_self _ _, List.mem_cons_of_mem _ hy⟩
    · rcases ih hp with ⟨h1, h2⟩
      exact ⟨List.mem_cons_of_mem _ h1, List.mem_cons_of_mem _ h2⟩

theorem pairsOf_lt {l : List String} (h : l.Sorted (· < ·)) :
    ∀ p ∈ pairsOf l, p.1 < p.2 := by
  induction l with
  | nil => simp [pairsOf]
  | cons x xs ih =>
    intro p hp
    rw [pairsOf, List.mem_append] at hp
    rcases hp with hp | hp
    · rcases List.mem_map.mp hp with ⟨y, hy, rfl⟩
      exact (List.pairwise_cons.mp h).1 y hy
    · exact ih (List.pairwise_cons.mp h).2 p hp

theorem pairsOf_nodup {l : List String} (h : l.Sorted (· < ·)) :
    (pairsOf l).Nodup := by
  induction l with
  | nil => simp [pairsOf]
  | cons x xs ih =>
    rw [pairsOf]
    rcases List.pairwise_cons.mp h with ⟨hx, hxs⟩
    refine List.Nodup.append ?_ (ih hxs) ?_
    · refine List.Nodup.map ?_ (hxs.nodup)
      intro y z hyz
      exact (Prod.mk.injEq _ _ _ _).mp hyz |>.2
    · intro p hp1 hp2
      rcases List.mem_map.mp hp1 with ⟨y, -, rfl⟩
      have hfst := (pairsOf_mem_parts hp2).1
      exact absurd (hx _ hfst) (lt_irrefl x)

theorem lookupKey_append {α : Type} (l₁ l₂ : List ((String × String) × α))
    (k : String × String) :
    lookupKey (l₁ ++ l₂) k = match lookupKey l₁ k with
      | some v => some v
      | none => lookupKey l₂ k := by
  induction l₁ with
  | nil => simp [lookupKey]
  | cons p rest ih =>
    rw [List.cons_append, lookupKey, lookupKey]
    rcases eq_or_ne p.1 k with he | he
    · rw [if_pos he, if_pos he]
    · rw [if_neg he, if_neg he, ih]

theorem buildEdgeMapFrom_isSome {edges : List Edge} {e : Edge} (he : e ∈ edges)
    (i : ℕ) : (lookupKey (buildEdgeMapFrom i edges) (canonKey e)).isSome := by
  induction edges generalizing i with
  | nil => simp at he
  | cons e' rest ih =>
    rw [buildEdgeMapFrom, lookupKey_append]
    rcases List.mem_cons.mp he with rfl | he'
    · cases hfst : lookupKey (buildEdgeMapFrom (i + 1) rest) (canonKey e) with
      | some v => simp
      | none => simp [lookupKey]
    · have := ih he' (i + 1)
      cases hfst : lookupKey (buildEdgeMapFrom (i + 1) rest) (canonKey e) with
      | some v => simp
      | none => rw [hfst] at this; simp at this

theorem updAt_map {α β : Type} (l : List α) (i : ℕ) (f : α → α) (g : α → β)
    (hf : ∀ x, g (f x) = g x) : (updAt l i f).map g = l.map g := by
  induction l generalizing i with
  | nil => rfl
  | cons x xs ih =>
    cases i with
    | zero => simp [updAt, hf]
    | succ n => simp [updAt, ih]

theorem mem_updAt {α : Type} {l : List α} {i : ℕ} {f : α → α} {x : α}
    (hx : x ∈ updAt l i f) : x ∈ l ∨ ∃ y ∈ l, x = f y := by
  induction l generalizing i with
  | nil => simp [updAt] at hx
  | cons z zs ih =>
    cases i with
    | zero =>
      rw [updAt, List.mem_cons] at hx
      rcases hx with rfl | hx
      · exact Or.inr ⟨z, List.mem_cons_self _ _, rfl⟩
      · exact Or.inl (List.mem_cons_of_mem _ hx)
    | succ n =>
      rw [updAt, List.mem_cons] at hx
      rcases hx with rfl | hx
      · exact Or.inl (List.mem_cons_self _ _)
      · rcases ih hx with h | ⟨y, hy, rfl⟩
        · exact Or.inl (List.mem_cons_of_mem _ h)
        · exact Or.inr ⟨y, List.mem_cons_of_mem _ hy, rfl⟩

/-- Everything recordPairs does to the edge list, provided the pairs are
strictly oriented and distinct and the map covers the canonical keys of the
current edges: the existing edges keep their positions and endpoints, and the
appended edges take their endpoints from the pair list, have pairwise distinct
canonical keys, and never duplicate the canonical key of an existing edge. -/
theorem recordPairs_spec (today : ℤ) (ps : List (String × String)) (es : List Edge)
    (m : List ((String × String) × ℕ))
    (hps : ∀ p ∈ ps, p.1 < p.2) (hnd : ps.Nodup)
    (hinv : ∀ e ∈ es, (lookupKey m (canonKey e)).isSome) :
    ∃ old new, (recordPairs today ps es m).1 = old ++ new ∧
      old.map ends = es.map ends ∧
      (∀ e ∈ new, ends e ∈ ps) ∧
      ((new.map canonKey).Nodup) ∧
      (∀ e ∈ new, canonKey e ∉ es.map canonKey) := by
  induction ps generalizing es m with
  | nil =>
    exact ⟨es, [], by simp [recordPairs], rfl, by simp, by simp, by simp⟩
  | cons p rest ih =>
    obtain ⟨a, b⟩ := p
    have hab : a < b := hps (a, b) (List.mem_cons_self _ _)
    have hmin : min a b = a := min_eq_left hab.le
    have hmax : max a b = b := max_eq_right hab.le
    have hps' : ∀ q ∈ rest, q.1 < q.2 := fun q hq => hps q (List.mem_cons_of_mem _ hq)
    have hnd' : rest.Nodup := hnd.of_cons
    cases hlk : lookupKey m (min a b, max a b) with
    | some i =>
      have hrec : recordPairs today ((a, b) :: rest) es m =
          recordPairs today rest
            (updAt es i fun e => { e with w := e.w + 1, lastSeen := today }) m := by
        simp only [recordPairs, hlk]
      rw [hrec]
      have hinv' : ∀ e ∈ updAt es i
          (fun e => { e with w := e.w + 1, lastSeen := today }),
          (lookupKey m (canonKey e)).isSome := by
        intro e he
        rcases mem_updAt he with h | ⟨y, hy, rfl⟩
        · exact hinv e h
        · exact hinv y hy
      obtain ⟨old, new, h1, h2, h3, h4, h5⟩ := ih _ _ hps' hnd' hinv'
      have hends : (updAt es i
          (fun e => { e with w := e.w + 1, lastSeen := today })).map ends
            = es.map ends := updAt_map _ _ _ _ fun e => rfl
      have hcanon : (updAt es i
          (fun e => { e with w := e.w + 1, lastSeen := today })).map canonKey
            = es.map canonKey := updAt_map _ _ _ _ fun e => rfl
      refine ⟨old, new, h1, by rw [h2, hends], ?_, h4, ?_⟩
      · exact fun e he => List.mem_cons_of_mem _ (h3 e he)
      · intro e he
        rw [← hcanon]
        exact h5 e he
    | none =>
      rw [hmin, hmax] at hlk
      have hrec : recordPairs today ((a, b) :: rest) es m =
          recordPairs today rest
            (es ++ [{ src := a, tgt := b, w := 1, lastSeen := today }])
            (((a, b), es.length) :: m) := by
        simp only [recordPairs, hmin, hmax, hlk]
      rw [hrec]
      have hcanonNew : canonKey { src := a, tgt := b, w := 1, lastSeen := today }
          = (a, b) := by
        simp [canonKey, hmin, hmax]
      have hinv' : ∀ e ∈ es ++ [{ src := a, tgt := b, w := 1, lastSeen := today }],
          (lookupKey (((a, b), es.length) :: m) (canonKey e)).isSome := by
        intro e he
        rw [lookupKey]
        rcases List.mem_append.mp he with he' | he'
        · split
          · simp
          · exact hinv e he'
        · rcases List.mem_singleton.mp he' with rfl
          rw [hcanonNew, if_pos rfl]
          simp
      obtain ⟨old₂, new₂, h1, h2, h3, h4, h5⟩ := ih _ _ hps' hnd' hinv'
      rw [List.map_append] at h2
      have hmaplen : (es.map ends).length = es.length := List.length_map _ _
      have htk : (old₂.take es.length).map ends = es.map ends := by
        rw [List.map_take, h2, List.take_left' hmaplen]
      have hdr : (old₂.drop es.length).map ends
          = [ends { src := a, tgt := b, w := 1, lastSeen := today }] := by
        rw [List.map_drop, h2, List.drop_left' hmaplen, List.map_singleton]
      have hlast : ∃ eL, old₂.drop es.length = [eL] ∧ ends eL = (a, b) := by
        have hlen1 : (old₂.drop es.length).length = 1 := by
          rw [← List.length_map (old₂.drop es.length) ends, hdr]
          rfl
        rcases List.length_eq_one.mp hlen1 with ⟨eL, heL⟩
        refine ⟨eL, heL, ?_⟩
        rw [heL] at hdr
        simpa [ends] using hdr
      rcases hlast with ⟨eL, heL, hendsL⟩
      have hsplit : old₂ = old₂.take es.length ++ [eL] := by
        rw [← heL, List.take_append_drop]
      have hcanonL : canonKey eL = (a, b) := by
        have ha' : eL.src = a := congrArg Prod.fst hendsL
        have hb' : eL.tgt = b := congrArg Prod.snd hendsL
        rw [canonKey, ha', hb', hmin, hmax]
      refine ⟨old₂.take es.length, eL :: new₂, ?_, htk, ?_, ?_, ?_⟩
      · calc (recordPairs today rest
              (es ++ [{ src := a, tgt := b, w := 1, lastSeen := today }])
              (((a, b), es.length) :: m)).1
            = old₂ ++ new₂ := h1
          _ = (old₂.take es.length ++ [eL]) ++ new₂ := by rw [← hsplit]
          _ = old₂.take es.length ++ (eL :: new₂) := by
              rw [List.append_assoc, List.singleton_append]
      · intro e he
        rcases List.mem_cons.mp he with rfl | he'
        · rw [hendsL]
          exact List.mem_cons_self _ _
        · exact List.mem_cons_of_mem _ (h3 e he')
      · rw [List.map_cons]
        refine List.nodup_cons.mpr ⟨?_, h4⟩
        rw [hcanonL]
        intro hmem
        rcases List.mem_map.mp hmem with ⟨e, he, hke⟩
        refine h5 e he ?_
        rw [List.map_append]
        refine List.mem_append.mpr (Or.inr ?_)
        rw [show ([{ src := a, tgt := b, w := 1, lastSeen := today }] :
          List Edge).map canonKey = [(a, b)] from by rw [List.map_singleton, hcanonNew]]
        simp [hke]
      · intro e he hmem
        rcases List.mem_cons.mp he with rfl | he'
        · rw [hcanonL] at hmem
          rcases List.mem_map.mp hmem with ⟨e₀, he₀, hk₀⟩
          have hsome := hinv e₀ he₀
          rw [hk₀, hlk] at hsome
          simp at hsome
        · refine h5 e he' ?_
          rw [List.map_append]
          exact List.mem_append.mpr (Or.inl hmem)

theorem sortedDedup_pair {a b : String} (hab : a ≠ b) :
    sortedDedup [a, b] = [min a b, max a b] := by
  have hdedup : ([a, b] : List String).dedup = [a, b] := by
    rw [List.dedup_cons_of_not_mem (by simp [hab])]
    rfl
  rw [sortedDedup, hdedup]
  rcases hab.lt_or_lt with h | h
  · rw [min_eq_left h.le, max_eq_right h.le]
    simp [List.insertionSort, List.orderedInsert, h.le]
  · rw [min_eq_right h.le, max_eq_left h.le]
    have : ¬(a ≤ b) := not_le.mpr h
    simp [List.insertionSort, List.orderedInsert, this]

/-- Recording the same two-id session twice on a fresh graph: the single
canonical edge is created on the first pass and reinforced to weight 2 on the
second. -/
theorem record_pair_twice (u v : String) (huv : u < v) (t₁ t₂ : ℤ)
    (kws : List String) (hkws : sortedDedup kws = [u, v]) :
    (record_cooccurrences (record_cooccurrences empty_graph kws t₁) kws t₂).edges
      = [{ src := u, tgt := v, w := 2, lastSeen := t₂ }] := by
  have hmin : min u v = u := min_eq_left huv.le
  have hmax : max u v = v := max_eq_right huv.le
  have hpairs : pairsOf (sortedDedup kws) = [(u, v)] := by
    rw [hkws]
    rfl
  have h1 : (record_cooccurrences empty_graph kws t₁).edges
      = [{ src := u, tgt := v, w := 1, lastSeen := t₁ }] := by
    show (recordPairs t₁ (pairsOf (sortedDedup kws)) empty_graph.edges
        (buildEdgeMap empty_graph.edges)).1 = _
    rw [hpairs]
    show (recordPairs t₁ [(u, v)] [] []).1 = _
    have hl : lookupKey ([] : List ((String × String) × ℕ)) (min u v, max u v)
        = none := rfl
    simp only [recordPairs, hl, hmin, hmax]
    rfl
  show (recordPairs t₂ (pairsOf (sortedDedup kws))
      (record_cooccurrences empty_graph kws t₁).edges
      (buildEdgeMap (record_cooccurrences empty_graph kws t₁).edges)).1 = _
  rw [hpairs, h1]
  have hbm : buildEdgeMap [{ src := u, tgt := v, w := 1, lastSeen := t₁ }]
      = [((u, v), 0)] := by
    show ([] : List ((String × String) × ℕ)) ++
        [(canonKey { src := u, tgt := v, w := 1, lastSeen := t₁ }, 0)] = _
    rw [List.nil_append]
    rw [show canonKey { src := u, tgt := v, w := 1, lastSeen := t₁ } = (u, v) from
      by rw [canonKey, hmin, hmax]]
  rw [hbm]
  have hl : lookupKey [((u, v), 0)] (min u v, max u v) = some 0 := by
    rw [hmin, hmax, lookupKey, if_pos rfl]
  simp only [recordPairs, hl, updAt]
  norm_num

/-- C7: the created edges of any recordCooccurrences call are canonically
oriented (src < tgt, hence src = min, tgt = max and src ≠ tgt), have pairwise
distinct canonical keys and never duplicate the canonical key of a
pre-existing edge, while pre-existing edges keep their positions and
endpoints; recording the same two-id session twice on a fresh graph leaves
exactly one edge of weight 2 for the canonical pair; a single-element or
empty input leaves the graph unchanged. -/
theorem record_cooccurrences_spec (g : Graph) (keywords : List String)
    (today today₁ today₂ : ℤ) (a b x : String) (hab : a ≠ b) :
    (∃ old new, (record_cooccurrences g keywords today).edges = old ++ new ∧
      old.map ends = g.edges.map ends ∧
      (∀ e ∈ new, e.src < e.tgt) ∧
      ((new.map canonKey).Nodup) ∧
      (∀ e ∈ new, canonKey e ∉ g.edges.map canonKey)) ∧
    (record_cooccurrences (record_cooccurrences empty_graph [a, b] today₁)
        [a, b] today₂).edges
      = [{ src := min a b, tgt := max a b, w := 2, lastSeen := today₂ }] ∧
    record_cooccurrences g [x] today = g ∧
    record_cooccurrences g [] today = g := by
  refine ⟨?_, ?_, rfl, rfl⟩
  · have hsorted := sortedDedup_sorted keywords
    have hps := pairsOf_lt hsorted
    have hnd := pairsOf_nodup hsorted
    have hinv : ∀ e ∈ g.edges,
        (lookupKey (buildEdgeMap g.edges) (canonKey e)).isSome :=
      fun e he => buildEdgeMapFrom_isSome he 0
    obtain ⟨old, new, h1, h2, h3, h4, h5⟩ :=
      recordPairs_spec today (pairsOf (sortedDedup keywords)) g.edges
        (buildEdgeMap g.edges) hps hnd hinv
    exact ⟨old, new, h1, h2, fun e he => hps _ (h3 e he), h4, h5⟩
  · exact record_pair_twice (min a b) (max a b) (min_lt_max.mpr hab) today₁ today₂
      [a, b] (sortedDedup_pair hab)

/-- Witness for C7 at concrete inputs. -/
theorem record_cooccurrences_spec_witness :
    (∃ old new, (record_cooccurrences empty_graph ["p", "q"] 5).edges = old ++ new ∧
      old.map ends = empty_graph.edges.map ends ∧
      (∀ e ∈ new, e.src < e.tgt) ∧
      ((new.map canonKey).Nodup) ∧
      (∀ e ∈ new, canonKey e ∉ empty_graph.edges.map canonKey)) ∧
    (record_cooccurrences (record_cooccurrences empty_graph ["a", "b"] 1)
        ["a", "b"] 2).edges
      = [{ src := min "a" "b", tgt := max "a" "b", w := 2, lastSeen := 2 }] ∧
    record_cooccurrences empty_graph ["z"] 5 = empty_graph ∧
    record_cooccurrences empty_graph [] 5 = empty_graph :=
  record_cooccurrences_spec empty_graph ["p", "q"] 5 1 2 "a" "b" "z" (by decide)

theorem mem_setInsert {s : List String} {v x : String} :
    x ∈ setInsert s v ↔ x ∈ s ∨ x = v := by
  rw [setInsert]
  split
  · next h =>
    constructor
    · exact Or.inl
    · rintro (hx | rfl)
      · exact hx
      · exact h
  · simp

theorem adjOf_cons (k₀ : String) (t : List String)
    (rest : List (String × List String)) (k' : String) :
    adjOf ((k₀, t) :: rest) k' = if k₀ = k' then t else adjOf rest k' := by
  rw [adjOf, lookupId]
  split
  · rfl
  · rfl

theorem adjOf_adjAddSet (m : List (String × List String)) (k v k' : String) :
    adjOf (adjAddSet m k v) k' =
      if k' = k then setInsert (adjOf m k) v else adjOf m k' := by
  induction m with
  | nil =>
    rcases eq_or_ne k' k with rfl | h
    · simp [adjAddSet, adjOf, lookupId, setInsert]
    · simp [adjAddSet, adjOf, lookupId, Ne.symm h, h]
  | cons p rest ih =>
    obtain ⟨k₀, s⟩ := p
    rw [adjAddSet]
    rcases eq_or_ne k₀ k with rfl | hk0
    · rw [if_pos rfl, adjOf_cons, adjOf_cons]
      rcases eq_or_ne k₀ k' with rfl | h1
      · rw [if_pos rfl, if_pos rfl]
        simp
      · rw [if_neg h1, if_neg (Ne.symm h1), adjOf_cons, if_neg h1]
    · rw [if_neg hk0, adjOf_cons]
      rcases eq_or_ne k₀ k' with rfl | h1
      · rw [if_pos rfl, if_neg (fun h : k₀ = k => hk0 h), adjOf_cons, if_pos rfl]
      · rw [if_neg h1, ih]
        rcases eq_or_ne k' k with rfl | h2
        · rw [if_pos rfl, if_pos rfl, adjOf_cons, if_neg hk0]
        · rw [if_neg h2, if_neg h2, adjOf_cons, if_neg h1]

theorem mem_adj_doubleAdd (m : List (String × List String)) (u v k w : String) :
    w ∈ adjOf (adjAddSet (adjAddSet m u v) v u) k ↔
      w ∈ adjOf m k ∨ (k = u ∧ w = v) ∨ (k = v ∧ w = u) := by
  by_cases huv : u = v
  · subst huv
    by_cases hku : k = u <;>
      simp [adjOf_adjAddSet, mem_setInsert, hku]
  · have hvu : ¬(v = u) := fun h => huv h.symm
    by_cases hkv : k = v
    · by_cases hku : k = u
      · exact absurd (hku.symm.trans hkv) huv
      · subst hkv
        simp [adjOf_adjAddSet, mem_setInsert, hku, huv, hvu]
    · by_cases hku : k = u
      · subst hku
        simp [adjOf_adjAddSet, mem_setInsert, hkv, huv, hvu]
      · simp [adjOf_adjAddSet, mem_setInsert, hkv, hku]

theorem adjSym_doubleAdd {m : List (String × List String)} (hm : AdjSym m)
    (u v : String) : AdjSym (adjAddSet (adjAddSet m u v) v u) := by
  intro x y
  rw [mem_adj_doubleAdd, mem_adj_doubleAdd, hm x y]
  tauto

theorem adjSym_foldl_edges (l : List Edge) (m : List (String × List String))
    (hm : AdjSym m) :
    AdjSym (l.foldl (fun m e => adjAddSet (adjAddSet m e.src e.tgt) e.tgt e.src) m) := by
  induction l generalizing m with
  | nil => exact hm
  | cons e rest ih => exact ih _ (adjSym_doubleAdd hm _ _)

theorem adjSym_foldl_strings (cid : String) (l : List String)
    (m : List (String × List String)) (hm : AdjSym m) :
    AdjSym (l.foldl (fun m other => adjAddSet (adjAddSet m cid other) other cid) m) := by
  induction l generalizing m with
  | nil => exact hm
  | cons s rest ih => exact ih _ (adjSym_doubleAdd hm _ _)

theorem adjSym_foldl_concepts (l : List (String × GConcept))
    (m : List (String × List String)) (hm : AdjSym m) :
    AdjSym (l.foldl (fun m p =>
      (p.2.broader ++ p.2.narrower ++ p.2.related).foldl
        (fun m other => adjAddSet (adjAddSet m p.1 other) other p.1) m) m) := by
  induction l generalizing m with
  | nil => exact hm
  | cons p rest ih => exact ih _ (adjSym_foldl_strings _ _ _ hm)

theorem buildAdjAll_sym (g : Graph) : AdjSym (buildAdjAll g) := by
  apply adjSym_foldl_concepts
  apply adjSym_foldl_edges
  intro u w
  simp [adjOf, lookupId]

theorem adj_mono_foldl_edges (l : List Edge) (m : List (String × List String))
    {k w : String} (h : w ∈ adjOf m k) :
    w ∈ adjOf (l.foldl (fun m e =>
      adjAddSet (adjAddSet m e.src e.tgt) e.tgt e.src) m) k := by
  induction l generalizing m with
  | nil => exact h
  | cons e rest ih =>
    exact ih _ ((mem_adj_doubleAdd _ _ _ _ _).mpr (Or.inl h))

theorem adj_mono_foldl_strings (cid : String) (l : List String)
    (m : List (String × List String)) {k w : String} (h : w ∈ adjOf m k) :
    w ∈ adjOf (l.foldl (fun m other =>
      adjAddSet (adjAddSet m cid other) other cid) m) k := by
  induction l generalizing m with
  | nil => exact h
  | cons s rest ih =>
    exact ih _ ((mem_adj_doubleAdd _ _ _ _ _).mpr (Or.inl h))

theorem adj_mono_foldl_concepts (l : List (String × GConcept))
    (m : List (String × List String)) {k w : String} (h : w ∈ adjOf m k) :
    w ∈ adjOf (l.foldl (fun m p =>
      (p.2.broader ++ p.2.narrower ++ p.2.related).foldl
        (fun m other => adjAddSet (adjAddSet m p.1 other) other p.1) m) m) k := by
  induction l generalizing m with
  | nil => exact h
  | cons p rest ih => exact ih _ (adj_mono_foldl_strings _ _ _ h)

theorem mem_after_edges_fold (l : List Edge) {e : Edge} (he : e ∈ l) :
    ∀ m, e.tgt ∈ adjOf (l.foldl (fun m e =>
      adjAddSet (adjAddSet m e.src e.tgt) e.tgt e.src) m) e.src := by
  induction l with
  | nil => simp at he
  | cons e' rest ih =>
    intro m
    rcases List.mem_cons.mp he with rfl | he'
    · exact adj_mono_foldl_edges rest _
        ((mem_adj_doubleAdd _ _ _ _ _).mpr (Or.inr (Or.inl ⟨rfl, rfl⟩)))
    · exact ih he' _

theorem edge_mem_buildAdjAll {g : Graph} {e : Edge} (he : e ∈ g.edges) :
    e.tgt ∈ adjOf (buildAdjAll g) e.src :=
  adj_mono_foldl_concepts _ _ (mem_after_edges_fold _ he _)

theorem gapOf_some {m : List (String × List String)} {p : String × String}
    {q : String × String × ℕ × List String} (h : gapOf m p = some q) :
    q = (p.1, p.2, (interOf (adjOf m p.1) (adjOf m p.2)).length,
      List.insertionSort (· ≤ ·) (interOf (adjOf m p.1) (adjOf m p.2))) ∧
    p.2 ∉ adjOf m p.1 ∧ 2 ≤ (interOf (adjOf m p.1) (adjOf m p.2)).length := by
  by_cases h1 : p.2 ∈ adjOf m p.1
  · simp only [gapOf, if_pos h1] at h
    cases h
  · by_cases h2 : 2 ≤ (interOf (adjOf m p.1) (adjOf m p.2)).length
    · simp only [gapOf, if_neg h1, if_pos h2] at h
      exact ⟨(Option.some.inj h).symm, h1, h2⟩
    · simp only [gapOf, if_neg h1, if_neg h2] at h
      cases h

theorem find_gaps_guard (g : Graph) (n maxNodes : ℕ)
    (h : maxNodes < (buildAdjAll g).length) : find_gaps g n maxNodes = [] := by
  have h' : maxNodes < ((buildAdjAll g).map Prod.fst).length := by
    rw [List.length_map]
    exact h
  simp only [find_gaps]
  rw [if_pos h']

theorem find_gaps_eq (g : Graph) (n maxNodes : ℕ)
    (h : ¬(maxNodes < (buildAdjAll g).length)) :
    find_gaps g n maxNodes =
      (sortDescBy (fun t : String × String × ℕ × List String => t.2.2.1)
        ((pairsOf ((buildAdjAll g).map Prod.fst)).filterMap
          (gapOf (buildAdjAll g)))).take n := by
  have h' : ¬(maxNodes < ((buildAdjAll g).map Prod.fst).length) := by
    rw [List.length_map]
    exact h
  simp only [find_gaps]
  rw [if_neg h']

/-- C8: findGaps returns [] when the combined-adjacency node count exceeds
maxNodes; otherwise every returned tuple (a, b, sharedCount, sharedList) is a
pair of nodes with no direct combined edge in either orientation whose
neighbour sets intersect in at least 2 nodes, sharedCount is that intersection
size and sharedList its sorted list, the result is sorted by sharedCount
descending and truncated to n, and a pair joined by a co-occurrence edge is
never reported. -/
theorem find_gaps_spec (g : Graph) (n maxNodes : ℕ) :
    (maxNodes < (buildAdjAll g).length → find_gaps g n maxNodes = []) ∧
    (find_gaps g n maxNodes).length ≤ n ∧
    ((find_gaps g n maxNodes).Pairwise fun s t => t.2.2.1 ≤ s.2.2.1) ∧
    ∀ q ∈ find_gaps g n maxNodes,
      q.2.1 ∉ adjOf (buildAdjAll g) q.1 ∧
      q.1 ∉ adjOf (buildAdjAll g) q.2.1 ∧
      q.2.2.1 = (interOf (adjOf (buildAdjAll g) q.1)
        (adjOf (buildAdjAll g) q.2.1)).length ∧
      2 ≤ q.2.2.1 ∧
      q.2.2.2 = List.insertionSort (· ≤ ·)
        (interOf (adjOf (buildAdjAll g) q.1) (adjOf (buildAdjAll g) q.2.1)) ∧
      ∀ e ∈ g.edges, ¬(e.src = q.1 ∧ e.tgt = q.2.1) ∧
        ¬(e.src = q.2.1 ∧ e.tgt = q.1) := by
  refine ⟨fun h => find_gaps_guard g n maxNodes h, ?_⟩
  by_cases hguard : maxNodes < (buildAdjAll g).length
  · rw [find_gaps_guard g n maxNodes hguard]
    exact ⟨by simp, by simp, by simp⟩
  · rw [find_gaps_eq g n maxNodes hguard]
    refine ⟨List.length_take_le _ _,
      List.Pairwise.sublist (List.take_sublist _ _) (sortDescBy_sorted _ _), ?_⟩
    intro q hq
    have hq' := (sortDescBy_perm
      (fun t : String × String × ℕ × List String => t.2.2.1) _).mem_iff.mp
      (List.mem_of_mem_take hq)
    rcases List.mem_filterMap.mp hq' with ⟨p, hp, hgap⟩
    obtain ⟨rfl, hnadj, hlen⟩ := gapOf_some hgap
    refine ⟨hnadj, ?_, rfl, hlen, rfl, ?_⟩
    · exact fun hmem => hnadj ((buildAdjAll_sym g p.1 p.2).mp hmem)
    · intro e he
      constructor
      · rintro ⟨h1, h2⟩
        have := edge_mem_buildAdjAll he
        rw [h1, h2] at this
        exact hnadj this
      · rintro ⟨h1, h2⟩
        have := edge_mem_buildAdjAll he
        rw [h1, h2] at this
        exact hnadj ((buildAdjAll_sym g p.1 p.2).mp this)

theorem find_gaps_gC8_eval : find_gaps gC8 5 500 =
    [("a", "b", 2, ["d", "e"]), ("d", "e", 2, ["a", "b"])] := by
  have hsort1 : List.insertionSort (· ≤ ·) ["d", "e"] = ["d", "e"] := by
    show List.orderedInsert _ "d" (List.orderedInsert _ "e" []) = _
    rw [List.orderedInsert, List.orderedInsert,
      if_pos (String.le_iff_toList_le.mpr (by decide) : ("d" : String) ≤ "e")]
  have hsort2 : List.insertionSort (· ≤ ·) ["a", "b"] = ["a", "b"] := by
    show List.orderedInsert _ "a" (List.orderedInsert _ "b" []) = _
    rw [List.orderedInsert, List.orderedInsert,
      if_pos (String.le_iff_toList_le.mpr (by decide) : ("a" : String) ≤ "b")]
  have hg1 : gapOf (buildAdjAll gC8) ("a", "b") = some ("a", "b", 2, ["d", "e"]) := by
    rw [gapOf, if_neg (by decide : ¬(("a", "b") : String × String).2
      ∈ adjOf (buildAdjAll gC8) ("a", "b").1)]
    have hint : interOf (adjOf (buildAdjAll gC8) ("a", "b").1)
        (adjOf (buildAdjAll gC8) ("a", "b").2) = ["d", "e"] := rfl
    rw [hint, if_pos (by decide : 2 ≤ (["d", "e"] : List String).length), hsort1]
    rfl
  have hg2 : gapOf (buildAdjAll gC8) ("d", "e") = some ("d", "e", 2, ["a", "b"]) := by
    rw [gapOf, if_neg (by decide : ¬(("d", "e") : String × String).2
      ∈ adjOf (buildAdjAll gC8) ("d", "e").1)]
    have hint : interOf (adjOf (buildAdjAll gC8) ("d", "e").1)
        (adjOf (buildAdjAll gC8) ("d", "e").2) = ["a", "b"] := rfl
    rw [hint, if_pos (by decide : 2 ≤ (["a", "b"] : List String).length), hsort2]
    rfl
  rw [find_gaps_eq gC8 5 500 (by decide)]
  rw [show (buildAdjAll gC8).map Prod.fst = ["a", "d", "e", "b"] from rfl]
  rw [show pairsOf ["a", "d", "e", "b"] =
    [("a", "d"), ("a", "e"), ("a", "b"), ("d", "e"), ("d", "b"), ("e", "b")] from rfl]
  simp only [List.filterMap_cons, List.filterMap_nil,
    (show gapOf (buildAdjAll gC8) ("a", "d") = none from rfl),
    (show gapOf (buildAdjAll gC8) ("a", "e") = none from rfl),
    (show gapOf (buildAdjAll gC8) ("d", "b") = none from rfl),
    (show gapOf (buildAdjAll gC8) ("e", "b") = none from rfl), hg1, hg2]
  rfl

/-- Witness for C8 at the spec's example graph: the pair (a, b) is reported
with sharedCount 2 and shared list [d, e]. -/
theorem find_gaps_spec_witness :
    (find_gaps gC8 5 500).length ≤ 5 ∧
    ("b" ∉ adjOf (buildAdjAll gC8) "a" ∧
     "a" ∉ adjOf (buildAdjAll gC8) "b" ∧
     (2 : ℕ) = (interOf (adjOf (buildAdjAll gC8) "a")
       (adjOf (buildAdjAll gC8) "b")).length ∧
     2 ≤ (2 : ℕ) ∧
     (["d", "e"] : List String) = List.insertionSort (· ≤ ·)
       (interOf (adjOf (buildAdjAll gC8) "a") (adjOf (buildAdjAll gC8) "b")) ∧
     ∀ e ∈ gC8.edges, ¬(e.src = "a" ∧ e.tgt = "b") ∧
       ¬(e.src = "b" ∧ e.tgt = "a")) := by
  have h := find_gaps_spec gC8 5 500
  have hmem : (("a", "b", 2, ["d", "e"]) : String × String × ℕ × List String)
      ∈ find_gaps gC8 5 500 := by
    rw [find_gaps_gC8_eval]
    exact List.mem_cons_self _ _
  exact ⟨h.2.1, h.2.2.2 ("a", "b", 2, ["d", "e"]) hmem⟩

theorem adjAddList_keys_mem {m : List (String × List String)} {k v n : String} :
    n ∈ (adjAddList m k v).map Prod.fst ↔ n ∈ m.map Prod.fst ∨ n = k := by
  induction m with
  | nil => simp [adjAddList]
  | cons p rest ih =>
    obtain ⟨k', s⟩ := p
    rw [adjAddList]
    split
    · next h =>
      subst h
      simp only [List.map_cons, List.mem_cons]
      tauto
    · next h =>
      simp only [List.map_cons, List.mem_cons, ih]
      tauto

theorem adjAddList_keys_nodup {m : List (String × List String)} {k v : String}
    (h : (m.map Prod.fst).Nodup) : ((adjAddList m k v).map Prod.fst).Nodup := by
  induction m with
  | nil => simp [adjAddList]
  | cons p rest ih =>
    obtain ⟨k', s⟩ := p
    rw [List.map_cons, List.nodup_cons] at h
    rw [adjAddList]
    split
    · next he =>
      rw [List.map_cons, List.nodup_cons]
      exact h
    · next he =>
      rw [List.map_cons, List.nodup_cons]
      refine ⟨?_, ih h.2⟩
      intro hmem
      rcases adjAddList_keys_mem.mp hmem with h1 | h1
      · exact h.1 h1
      · exact he h1

theorem buildAdjW_foldl_mem (mw : ℤ) (n : String) (l : List Edge) :
    ∀ m : List (String × List String),
      (n ∈ (l.foldl (fun m e => if e.w < mw then m
          else adjAddList (adjAddList m e.src e.tgt) e.tgt e.src) m).map Prod.fst ↔
        n ∈ m.map Prod.fst ∨ ∃ e ∈ l, mw ≤ e.w ∧ (e.src = n ∨ e.tgt = n)) := by
  induction l with
  | nil => intro m; simp
  | cons e rest ih =>
    intro m
    rw [List.foldl_cons]
    by_cases hw : e.w < mw
    · rw [if_pos hw, ih m]
      constructor
      · rintro (h | ⟨e', he', h1, h2⟩)
        · exact Or.inl h
        · exact Or.inr ⟨e', List.mem_cons_of_mem _ he', h1, h2⟩
      · rintro (h | ⟨e', he', h1, h2⟩)
        · exact Or.inl h
        · rcases List.mem_cons.mp he' with rfl | he''
          · omega
          · exact Or.inr ⟨e', he'', h1, h2⟩
    · rw [if_neg hw, ih _]
      have hq : mw ≤ e.w := not_lt.mp hw
      constructor
      · rintro (h | ⟨e', he', h1, h2⟩)
        · rcases adjAddList_keys_mem.mp h with h' | h'
          · rcases adjAddList_keys_mem.mp h' with h'' | h''
            · exact Or.inl h''
            · exact Or.inr ⟨e, List.mem_cons_self _ _, hq, Or.inl h''.symm⟩
          · exact Or.inr ⟨e, List.mem_cons_self _ _, hq, Or.inr h'.symm⟩
        · exact Or.inr ⟨e', List.mem_cons_of_mem _ he', h1, h2⟩
      · rintro (h | ⟨e', he', h1, h2⟩)
        · exact Or.inl (adjAddList_keys_mem.mpr
            (Or.inl (adjAddList_keys_mem.mpr (Or.inl h))))
        · rcases List.mem_cons.mp he' with rfl | he''
          · rcases h2 with h2 | h2
            · exact Or.inl (adjAddList_keys_mem.mpr
                (Or.inl (adjAddList_keys_mem.mpr (Or.inr h2.symm))))
            · exact Or.inl (adjAddList_keys_mem.mpr (Or.inr h2.symm))
          · exact Or.inr ⟨e', he'', h1, h2⟩

theorem buildAdjW_mem (edges : List Edge) (mw : ℤ) (n : String) :
    n ∈ (buildAdjW edges mw).map Prod.fst ↔
      ∃ e ∈ edges, mw ≤ e.w ∧ (e.src = n ∨ e.tgt = n) := by
  have := buildAdjW_foldl_mem mw n edges []
  simpa [buildAdjW] using this

theorem buildAdjW_keys_nodup (edges : List Edge) (mw : ℤ) :
    ((buildAdjW edges mw).map Prod.fst).Nodup := by
  suffices h : ∀ m : List (String × List String), (m.map Prod.fst).Nodup →
      ((edges.foldl (fun m e => if e.w < mw then m
        else adjAddList (adjAddList m e.src e.tgt) e.tgt e.src) m).map Prod.fst).Nodup by
    exact h [] (by simp)
  induction edges with
  | nil => exact fun m hm => hm
  | cons e rest ih =>
    intro m hm
    rw [List.foldl_cons]
    by_cases hw : e.w < mw
    · rw [if_pos hw]
      exact ih m hm
    · rw [if_neg hw]
      exact ih _ (adjAddList_keys_nodup (adjAddList_keys_nodup hm))

theorem labelsSet_keys {ls : List (String × String)} {k v : String}
    (h : k ∈ ls.map Prod.fst) :
    (labelsSet ls k v).map Prod.fst = ls.map Prod.fst := by
  induction ls with
  | nil => simp at h
  | cons p rest ih =>
    obtain ⟨k', s⟩ := p
    rw [labelsSet]
    split
    · next he =>
      simp [he]
    · next he =>
      rw [List.map_cons, List.map_cons, ih]
      rcases List.mem_cons.mp h with h' | h'
      · exact absurd h'.symm he
      · exact h'

theorem propRound_keys (adjm : List (String × List String)) (nodes : List String) :
    ∀ (ls : List (String × String)) (ch : Bool),
      (∀ n ∈ nodes, n ∈ ls.map Prod.fst) →
      (propRound adjm nodes ls ch).1.map Prod.fst = ls.map Prod.fst := by
  induction nodes with
  | nil => intro ls ch _; rfl
  | cons node rest ih =>
    intro ls ch h
    rw [propRound]
    split
    · exact ih ls ch fun n hn => h n (List.mem_cons_of_mem _ hn)
    · split
      · have hk := labelsSet_keys (v := mostCommonLabel
          ((((lookupId adjm node).getD []).map (labelsGet ls))))
          (h node (List.mem_cons_self _ _))
        rw [ih _ true ?_, hk]
        intro n hn
        rw [hk]
        exact h n (List.mem_cons_of_mem _ hn)
      · exact ih ls ch fun n hn => h n (List.mem_cons_of_mem _ hn)

theorem propagate_keys (adjm : List (String × List String)) (k : ℕ) :
    ∀ ls : List (String × String),
      (∀ n ∈ adjm.map Prod.fst, n ∈ ls.map Prod.fst) →
      (propagate adjm k ls).map Prod.fst = ls.map Prod.fst := by
  induction k with
  | zero => intro ls _; rfl
  | succ k ih =>
    intro ls h
    rw [propagate]
    have hr := propRound_keys adjm (adjm.map Prod.fst) ls false h
    split
    · rw [ih _ ?_, hr]
      intro n hn
      rw [hr]
      exact h n hn
    · exact hr

theorem flatten_addToGroup (gs : List (String × List String)) (label node : String) :
    List.Perm (((addToGroup gs label node).map Prod.snd).flatten)
      (((gs.map Prod.snd).flatten) ++ [node]) := by
  induction gs with
  | nil => simp [addToGroup, adjAddList]
  | cons p rest ih =>
    obtain ⟨k, s⟩ := p
    rw [addToGroup, adjAddList]
    split
    · next he =>
      simp only [List.map_cons, List.flatten_cons]
      have h1 : (s ++ [node]) ++ ((rest.map Prod.snd).flatten)
          = s ++ ([node] ++ (rest.map Prod.snd).flatten) := by
        rw [List.append_assoc]
      have h2 : List.Perm (s ++ ([node] ++ (rest.map Prod.snd).flatten))
          (s ++ (((rest.map Prod.snd).flatten) ++ [node])) :=
        (List.perm_append_comm).append_left s
      have h3 : s ++ (((rest.map Prod.snd).flatten) ++ [node])
          = (s ++ (rest.map Prod.snd).flatten) ++ [node] := by
        rw [List.append_assoc]
      rw [h1, ← h3]
      exact h2
    · next he =>
      simp only [List.map_cons, List.flatten_cons]
      have h2 : List.Perm
          (s ++ (((adjAddList rest label node).map Prod.snd).flatten))
          (s ++ (((rest.map Prod.snd).flatten) ++ [node])) := ih.append_left s
      have h3 : s ++ (((rest.map Prod.snd).flatten) ++ [node])
          = (s ++ (rest.map Prod.snd).flatten) ++ [node] := by
        rw [List.append_assoc]
      rw [← h3]
      exact h2

theorem flatten_groupFold (ls : List (String × String)) :
    ∀ gs : List (String × List String),
      List.Perm
        (((ls.foldl (fun gs p => addToGroup gs p.2 p.1) gs).map Prod.snd).flatten)
        (((gs.map Prod.snd).flatten) ++ ls.map Prod.fst) := by
  induction ls with
  | nil => intro gs; simp
  | cons p rest ih =>
    intro gs
    rw [List.foldl_cons]
    refine (ih _).trans ?_
    have h1 := (flatten_addToGroup gs p.2 p.1).append_right (rest.map Prod.fst)
    refine h1.trans ?_
    rw [List.append_assoc, List.singleton_append, List.map_cons]

theorem detect_communities_eq (g : Graph) (mw : ℤ) :
    detect_communities g mw =
      (propagate (buildAdjW g.edges mw) 10
        ((buildAdjW g.edges mw).map fun p => (p.1, p.1))).foldl
        (fun gs p => addToGroup gs p.2 p.1) [] := rfl

/-- C10: the member lists of detectCommunities partition exactly the set of
nodes incident to at least one edge of weight at least minEdgeWeight: every
such node appears exactly once across all communities, and a node with no
qualifying edge appears in no community. -/
theorem detect_communities_partition (g : Graph) (mw : ℤ) :
    ((((detect_communities g mw).map Prod.snd).flatten).Nodup) ∧
    ∀ x, x ∈ ((detect_communities g mw).map Prod.snd).flatten ↔
      ∃ e ∈ g.edges, mw ≤ e.w ∧ (e.src = x ∨ e.tgt = x) := by
  have h0 : (((buildAdjW g.edges mw).map fun p => (p.1, p.1)).map Prod.fst)
      = (buildAdjW g.edges mw).map Prod.fst := by
    simp [List.map_map, Function.comp]
  have hperm : List.Perm (((detect_communities g mw).map Prod.snd).flatten)
      ((propagate (buildAdjW g.edges mw) 10
        ((buildAdjW g.edges mw).map fun p => (p.1, p.1))).map Prod.fst) := by
    rw [detect_communities_eq]
    have := flatten_groupFold (propagate (buildAdjW g.edges mw) 10
      ((buildAdjW g.edges mw).map fun p => (p.1, p.1))) []
    simpa using this
  have hkeys : (propagate (buildAdjW g.edges mw) 10
      ((buildAdjW g.edges mw).map fun p => (p.1, p.1))).map Prod.fst
        = (buildAdjW g.edges mw).map Prod.fst := by
    rw [propagate_keys _ _ _ ?_, h0]
    intro n hn
    rw [h0]
    exact hn
  rw [hkeys] at hperm
  constructor
  · exact hperm.nodup_iff.mpr (buildAdjW_keys_nodup g.edges mw)
  · intro x
    rw [hperm.mem_iff, buildAdjW_mem]

/-- Sanity witness for C10 at a concrete graph. -/
theorem detect_communities_partition_witness :
    ((((detect_communities gC8 1).map Prod.snd).flatten).Nodup) ∧
    ∀ x, x ∈ ((detect_communities gC8 1).map Prod.snd).flatten ↔
      ∃ e ∈ gC8.edges, (1 : ℤ) ≤ e.w ∧ (e.src = x ∨ e.tgt = x) :=
  detect_communities_partition gC8 1

/-- C9: suggest, detectCommunities and findGaps leave the graph exactly as it
was: no concept record (in particular no stored weight), no edge and no meta
field is modified by any of the three read-only operations; suggest advances
only the global generator state. -/
theorem readonly_ops (g : Graph) (rs : ℕ) (n : ℕ) (recent : List String)
    (seed : Option ℕ) (today : ℤ) (mw : ℤ) (n' maxNodes : ℕ) :
    (suggestState (g, rs) n recent seed today).2.1 = g ∧
    (detectState (g, rs) mw).2 = (g, rs) ∧
    (findGapsState (g, rs) n' maxNodes).2 = (g, rs) :=
  ⟨rfl, rfl, rfl⟩

/-- C6 (amended): load returns the empty default document when the store file
holds invalid JSON (whatever the legacy-markdown situation), and when the
store file is absent and no legacy markdown file exists; a parseable store is
returned as-is.  The empty default document has version 1, totalSessions 0,
halfLifeDays 90 and no concepts or edges. -/
theorem load_graph_defaults (md : Option String) (g : Graph) (todayD : ℤ)
    (todayStr : String) :
    load_graph (some none) md todayD todayStr = empty_graph ∧
    load_graph none none todayD todayStr = empty_graph ∧
    load_graph (some (some g)) md todayD todayStr = g ∧
    empty_graph.version = 1 ∧ empty_graph.meta.totalSessions = 0 ∧
    empty_graph.meta.halfLifeDays = 90 ∧ empty_graph.concepts = [] ∧
    empty_graph.edges = [] :=
  ⟨rfl, rfl, rfl, rfl, rfl, rfl, rfl, rfl⟩

/-- C6 counterexample to the claim as stated: with the store file absent but
the legacy markdown file present, load auto-migrates the markdown instead of
returning the empty default document; a one-category one-keyword legacy file
yields a concept map containing the keyword, not an empty one. -/
theorem load_graph_cex :
    ((load_graph none (some "## Tech\n- **keywords**: [rust]") 0
      "2026-10-12").concepts.map Prod.fst) = ["rust"] ∧
    (["rust"] : List String) ≠ ([] : List String) ∧
    empty_graph.concepts.map Prod.fst = ([] : List String) :=
  ⟨rfl, by decide, rfl⟩
